import Mathlib

/-!
Verification development for PyBacker (src/py_backer.py), a polling
change-detection and versioned-backup tool.  Python strings are embedded as
lists of characters, filesystem paths as a drive string plus a list of path
components, and the directory tree as a finite forest.  Filesystem effects
(copying, config rewriting, path canonicalisation of raw config strings) are
modelled as oracle function parameters; everything else is translated
directly from the source.
-/

/-! ## Python strings -/

/-- A Python `str` value, embedded as its list of characters. -/
abbrev PyStr := List Char

/-- Convert a Lean string literal to the embedded representation. -/
def pstr (s : String) : PyStr := s.data

/-- ASCII whitespace recognised by Python's `str.strip` / `int`. -/
def isSpaceChar (c : Char) : Bool :=
  c = ' ' || c = '\t' || c = '\n' || c = '\r' || c = '\x0b' || c = '\x0c'

/-- Python `str.strip()`: drop leading and trailing whitespace. -/
def pyStrip (s : PyStr) : PyStr :=
  ((s.dropWhile isSpaceChar).reverse.dropWhile isSpaceChar).reverse

/-- ASCII decimal digit test (embedding of the regex class `\d` and of the
digits accepted by `int`, restricted to ASCII). -/
def isDigitCh (c : Char) : Bool := 48 ≤ c.toNat && c.toNat ≤ 57

/-- Numeric value of a digit character. -/
def digitVal (c : Char) : Nat := c.toNat - 48

/-- Value of a string of decimal digit characters, most significant first. -/
def digitsVal (s : PyStr) : Nat := s.foldl (fun a c => 10 * a + digitVal c) 0

/-- Python `str.split('.')`: split on every dot, keeping empty pieces. -/
def splitOnDot : PyStr → List PyStr
  | [] => [[]]
  | c :: r =>
    if c = '.' then [] :: splitOnDot r
    else
      match splitOnDot r with
      | [] => [[c]]
      | h :: t => (c :: h) :: t

/-- Python `'.'.join(parts)`. -/
def joinDot : List PyStr → PyStr
  | [] => []
  | [x] => x
  | x :: r => x ++ '.' :: joinDot r

/-- Digit-run validity for Python `int(str)`: digits with single underscores
allowed only between digits ("1_0" is valid, "1__0", "_1", "1_" are not). -/
def pyDigitsU : PyStr → Bool
  | [] => false
  | [c] => isDigitCh c
  | c :: d :: rest =>
    isDigitCh c && (if d = '_' then pyDigitsU rest else pyDigitsU (d :: rest))

/-- Python `int(s)` on a string: strip whitespace, optional sign, then a
digit run (underscore separators allowed); `Option.none` models `ValueError`. -/
def pyInt (s : PyStr) : Option Int :=
  let t := pyStrip s
  match t with
  | '+' :: r =>
    if pyDigitsU r then some (Int.ofNat (digitsVal (r.filter (· ≠ '_')))) else Option.none
  | '-' :: r =>
    if pyDigitsU r then some (-(Int.ofNat (digitsVal (r.filter (· ≠ '_'))))) else Option.none
  | r =>
    if pyDigitsU r then some (Int.ofNat (digitsVal (r.filter (· ≠ '_')))) else Option.none

/-- Decimal digit character for a value below ten. -/
def digitChar (n : Nat) : Char := Char.ofNat (48 + n)

/-- Fuelled decimal printer (fuel `n + 1` always suffices for `n`). -/
def natToDigitsAux : Nat → Nat → List Char → List Char
  | 0, _, acc => acc
  | fuel + 1, n, acc =>
    if n < 10 then digitChar n :: acc
    else natToDigitsAux fuel (n / 10) (digitChar (n % 10) :: acc)

/-- Decimal representation of a natural number (Python `str(n)` for `n ≥ 0`). -/
def natToStr (n : Nat) : PyStr := natToDigitsAux (n + 1) n []

/-- Reference decimal printer used for reasoning (equal to `natToStr`). -/
def specDigits (n : Nat) : List Char :=
  if _h : n < 10 then [digitChar n]
  else specDigits (n / 10) ++ [digitChar (n % 10)]
decreasing_by exact Nat.div_lt_self (by omega) (by omega)

/-- Python `str(i)` for an integer. -/
def intToStr (i : Int) : PyStr :=
  if i < 0 then '-' :: natToStr i.natAbs else natToStr i.toNat

/-! ## Version codec (`parse_version`, `increment_build_number`) -/

/-- Embedding of `re.match(r'^(\d+)\.(\d+)\.(\d+)\.(\d+)$', s)`: the regex
matches exactly when splitting on dots yields four nonempty all-digit groups,
and the captured groups are those four parts. -/
def regexMatch4 (s : PyStr) : Option (List Nat) :=
  let parts := splitOnDot s
  if parts.length = 4 && parts.all (fun p => !p.isEmpty && p.all isDigitCh) then
    some (parts.map digitsVal)
  else Option.none

/-- Arbitrary Python values that may reach `parse_version`'s argument. -/
inductive PyVal where
  | str (s : PyStr)
  | bytes (s : PyStr)
  | int (n : Int)
  | pyNone
deriving DecidableEq

/-- Python exceptions relevant to `parse_version`. -/
inductive PyExc where
  | typeError
  | valueError
  | attributeError
deriving DecidableEq

/-- The `while len(parts) < 4: parts.append('0')` padding loop. -/
def pad4 (parts : List PyStr) : List PyStr :=
  parts ++ List.replicate (4 - parts.length) ['0']

/-- The list comprehension `[int(x) for x in parts]`: the first failing
conversion raises `ValueError`, modelled as `Option.none`. -/
def intListAll : List PyStr → Option (List Int)
  | [] => some []
  | s :: r =>
    match pyInt s, intListAll r with
    | some i, some l => some (i :: l)
    | _, _ => Option.none

/-- `parse_version`'s `try` body on a string argument (py_backer.py lines
30-45): try the strict 4-component regex on the stripped input; otherwise
split on dots, pad with `'0'` to four parts, and convert the first four with
`int`; a failing conversion raises `ValueError`. -/
def parse_version_strE (s : PyStr) : Except PyExc (List Int) :=
  match regexMatch4 (pyStrip s) with
  | some l => Except.ok (l.map Int.ofNat)
  | Option.none =>
    match intListAll ((pad4 (splitOnDot s)).take 4) with
    | some l => Except.ok l
    | Option.none => Except.error PyExc.valueError

/-- `parse_version` on a string: the `except` handler turns `ValueError`
into the `[1, 0, 0, 0]` fallback. -/
def parse_version (s : PyStr) : List Int :=
  match parse_version_strE s with
  | Except.ok l => l
  | Except.error _ => [1, 0, 0, 0]

/-- The body of `parse_version`'s `try` block for an arbitrary value: a
non-string without `.strip` raises `AttributeError`; `bytes` has `.strip` but
`re.match` with a `str` pattern then raises `TypeError`; a failing `int`
conversion raises `ValueError`. -/
def parse_version_try : PyVal → Except PyExc (List Int)
  | PyVal.str s => parse_version_strE s
  | PyVal.bytes _ => Except.error PyExc.typeError
  | PyVal.int _ => Except.error PyExc.attributeError
  | PyVal.pyNone => Except.error PyExc.attributeError

/-- `parse_version` on an arbitrary value: the `except (ValueError,
AttributeError)` handler returns the `[1, 0, 0, 0]` fallback; `TypeError` is
not caught and propagates. -/
def parse_version_py (v : PyVal) : Except PyExc (List Int) :=
  match parse_version_try v with
  | Except.error PyExc.valueError => Except.ok [1, 0, 0, 0]
  | Except.error PyExc.attributeError => Except.ok [1, 0, 0, 0]
  | r => r

/-- `'.'.join(map(str, components))`. -/
def formatVersion (l : List Int) : PyStr := joinDot (l.map intToStr)

/-- `increment_build_number` (lines 47-50): `version_components[3] += 1`
(an `IndexError`, modelled as `Option.none`, if there is no index 3) and
return the dot-joined string; the updated component list models the in-place
mutation. -/
def increment_build_number (l : List Int) : Option (List Int × PyStr) :=
  if 3 < l.length then
    let l2 := l.set 3 (l.getD 3 0 + 1)
    some (l2, formatVersion l2)
  else Option.none

/-- Spec-side notion of a "valid 4-component version string": four
dot-separated nonempty numeric components. -/
def isValid4 (s : PyStr) : Bool :=
  (splitOnDot s).length = 4 && (splitOnDot s).all (fun p => !p.isEmpty && p.all isDigitCh)

/-- Canonical version string built from four numbers. -/
def verStr (a b c d : Nat) : PyStr :=
  joinDot [natToStr a, natToStr b, natToStr c, natToStr d]

/-! ## Paths and exclusion matching -/

/-- A canonical absolute path: a filesystem root (drive) and the list of
path components.  `normalize_path` (lines 21-28) resolves a path to this
canonical absolute form; in the symlink-free model every path handled by the
monitor is already canonical, so normalisation is the identity on `AbsPath`
and the drive/component structure is what the string-level functions see. -/
structure AbsPath where
  drive : PyStr
  comps : List PyStr
deriving DecidableEq

/-- `os.path.join(root, name)` for a canonical root and a plain entry name. -/
def childPath (p : AbsPath) (n : PyStr) : AbsPath := ⟨p.drive, p.comps ++ [n]⟩

/-- Component part of `os.path.relpath(path, start)` on canonical paths:
drop the longest common prefix, go up with `'..'` once per remaining
component of `start`, then descend along the remainder of `path`. -/
def relpathComps : List PyStr → List PyStr → List PyStr
  | p, [] => p
  | [], q => List.replicate q.length ['.', '.']
  | a :: p2, b :: q2 =>
    if a = b then relpathComps p2 q2
    else List.replicate (b :: q2).length ['.', '.'] ++ a :: p2

/-- `os.path.relpath` returns `'.'` when the paths are equal. -/
def relpathRaw (p q : List PyStr) : List PyStr :=
  let r := relpathComps p q
  if r = [] then [['.']] else r

/-- Whether a path component string starts with the two characters `..`. -/
def compStartsDD : PyStr → Bool
  | '.' :: '.' :: _ => true
  | _ => false

/-- Whether the joined relative-path string starts with `'..'`: the joined
string begins with two dots exactly when its first component does (a single
1-character component is followed by the separator `/`). -/
def startsDD : List PyStr → Bool
  | [] => false
  | c :: _ => compStartsDD c

/-- Boolean "`e` is a componentwise prefix of `p`" (ancestor-or-self). -/
def isUnder : List PyStr → List PyStr → Bool
  | [], _ => true
  | _ :: _, [] => false
  | a :: e2, b :: p2 => a = b && isUnder e2 p2

/-- `is_path_excluded` (lines 135-156): exact match against any excluded
path, or a relative path from the excluded root that does not start with
`'..'`; a cross-drive `ValueError` from `relpath` is treated as
not excluded for that entry.  The tested path is already canonical, so the
`normalize_path` call is the identity. -/
def is_path_excluded (p : AbsPath) (excl : List AbsPath) : Bool :=
  excl.any fun e =>
    p = e ||
      (if p.drive = e.drive then !startsDD (relpathRaw p.comps e.comps) else false)

/-- Spec-side reading of claim C3: excluded iff equal to, or a descendant
of, some member of the exclusion list. -/
def specExcludedC3 (p : AbsPath) (E : List AbsPath) : Prop :=
  ∃ e ∈ E, p = e ∨ (p.drive = e.drive ∧ isUnder e.comps p.comps = true ∧ e.comps ≠ p.comps)

/-- What `is_path_excluded` actually decides: equality, or descent where the
first component below the excluded root does not itself begin with `..`. -/
def codeExcludedC3 (p : AbsPath) (E : List AbsPath) : Prop :=
  ∃ e ∈ E, p = e ∨ (p.drive = e.drive ∧ isUnder e.comps p.comps = true ∧ e.comps ≠ p.comps ∧
    compStartsDD ((p.comps.drop e.comps.length).headD []) = false)

/-! ## Building the exclusion set (`normalize_excluded_paths`) -/

/-- `os.path.isabs` (POSIX): begins with the separator. -/
def isAbsStr : PyStr → Bool
  | '/' :: _ => true
  | _ => false

/-- `os.path.join(a, b)` on raw strings (POSIX rules). -/
def pyJoin (a b : PyStr) : PyStr :=
  if isAbsStr b then b
  else if a = [] then b
  else if a.getLast? = some '/' then a ++ b
  else a ++ '/' :: b

/-- Python list indexing `l[i]`: nonnegative from the front, negative from
the back; `Option.none` models `IndexError`. -/
def pyListGet (l : List PyStr) (i : Int) : Option PyStr :=
  if 0 ≤ i then l.get? i.toNat
  else if 0 ≤ (l.length : Int) + i then l.get? ((l.length : Int) + i).toNat
  else Option.none

/-- A raw `excluded_dirs` entry: a single JSON string or a list of strings. -/
inductive ExVal where
  | one (s : PyStr)
  | many (l : List PyStr)
deriving DecidableEq

/-- The `isinstance(excluded_paths, str)` coercion to a list. -/
def coerceList : ExVal → List PyStr
  | ExVal.one s => [s]
  | ExVal.many l => l

/-- Dict assignment `m[k] = v` on an insertion-ordered association list. -/
def mapSet (m : List (Int × List PyStr)) (k : Int) (v : List PyStr) :
    List (Int × List PyStr) :=
  match m with
  | [] => [(k, v)]
  | (k2, v2) :: r => if k2 = k then (k2, v) :: r else (k2, v2) :: mapSet r k v

/-- Processing of one raw exclusion entry (lines 115-127): strip whitespace,
drop empties, normalise absolute entries directly, resolve relative entries
against the index's normalised source directory. -/
def procEntry (norm : PyStr → PyStr) (src : PyStr) (raw : PyStr) : Option PyStr :=
  let e := pyStrip raw
  if e = [] then Option.none
  else if isAbsStr e then some (norm e)
  else some (norm (pyJoin src e))

/-- `normalize_excluded_paths` (lines 98-133).  `norm` is the filesystem
oracle for `normalize_path` on raw config strings.  Returns the built map
together with the list of keys for which the warning at line 131 fired: a
key whose `int` raises `ValueError`, or whose index raises `IndexError`
(below `-len(source_dirs)`), is warned about and dropped; an index that is
at least `len(source_dirs)` merely fails the `if` and is dropped silently. -/
def normalize_excluded_paths (norm : PyStr → PyStr)
    (dict : List (PyStr × ExVal)) (source_dirs : List PyStr) :
    List (Int × List PyStr) × List PyStr :=
  dict.foldl
    (fun acc kv =>
      match pyInt kv.1 with
      | Option.none => (acc.1, acc.2 ++ [kv.1])
      | some index =>
        if index < (source_dirs.length : Int) then
          match pyListGet source_dirs index with
          | Option.none => (acc.1, acc.2 ++ [kv.1])
          | some sd =>
            let src := norm sd
            (mapSet acc.1 index ((coerceList kv.2).filterMap (procEntry norm src)), acc.2)
        else acc)
    ([], [])

/-! ## Directory tree, modification-time table, and the scan
(`monitor_directories`, lines 235-281) -/

/-- Per-source modification-time table `item_mod_times[source_dir]`:
a Python dict from absolute item path to last observed mtime, embedded as an
insertion-ordered association list.  Timestamps are modelled as naturals. -/
abbrev ModTable := List (AbsPath × Nat)

/-- Dict lookup `t.get(p)`. -/
def tblGet : ModTable → AbsPath → Option Nat
  | [], _ => Option.none
  | (k, v) :: r, p => if k = p then some v else tblGet r p

/-- Dict lookup with default, `t.get(p, d)`. -/
def tblGetD (t : ModTable) (p : AbsPath) (d : Nat) : Nat := (tblGet t p).getD d

/-- Dict assignment `t[p] = v`. -/
def tblSet : ModTable → AbsPath → Nat → ModTable
  | [], p, v => [(p, v)]
  | (k, w) :: r, p, v => if k = p then (k, v) :: r else (k, w) :: tblSet r p v

/-- A directory's entry list, as one flat inductive so that the walk is
structurally recursive: an entry list is empty, or a file followed by the
rest, or a subdirectory (with its own entry list) followed by the rest.
`mtime = Option.none` models an entry whose `os.path.getmtime` raises
(the item is skipped, line 266-269); every modelled entry exists, so the
`os.path.exists` race check (line 261) always passes. -/
inductive FSTree where
  | nil : FSTree
  | fileCons (name : PyStr) (mtime : Option Nat) (rest : FSTree) : FSTree
  | dirCons (name : PyStr) (mtime : Option Nat) (children : FSTree) (rest : FSTree) : FSTree
deriving DecidableEq

/-- The `dirs` list `os.walk` yields for a directory, with each
subdirectory's mtime. -/
def dirNames : FSTree → List (PyStr × Option Nat)
  | FSTree.nil => []
  | FSTree.fileCons _ _ r => dirNames r
  | FSTree.dirCons n m _ r => (n, m) :: dirNames r

/-- The `files` list `os.walk` yields for a directory. -/
def fileNames : FSTree → List (PyStr × Option Nat)
  | FSTree.nil => []
  | FSTree.fileCons n m r => (n, m) :: fileNames r
  | FSTree.dirCons _ _ _ r => fileNames r

/-- The `dirs + files` sequence of the per-root item loop (line 254), after
excluded subdirectories have been removed from `dirs` (lines 244-251). -/
def bodyNames (excl : List AbsPath) (root : AbsPath) (f : FSTree) :
    List (PyStr × Option Nat) :=
  (dirNames f).filter (fun x => !is_path_excluded (childPath root x.1) excl) ++ fileNames f

/-- A changed item `(item_path, rel_path)` as appended at line 274. -/
abbrev Item := AbsPath × List PyStr

/-- The body of the item loop (lines 254-275): re-check exclusion on the
full item path, skip unreadable mtimes, and if the mtime differs from the
recorded value (default 0 for an absent key) record it and emit the item. -/
def processItem (excl : List AbsPath) (src root : AbsPath)
    (acc : ModTable × List Item) (x : PyStr × Option Nat) : ModTable × List Item :=
  let item := childPath root x.1
  if is_path_excluded item excl then acc
  else
    match x.2 with
    | Option.none => acc
    | some m =>
      if m ≠ tblGetD acc.1 item 0 then
        (tblSet acc.1 item m, acc.2 ++ [(item, relpathComps item.comps src.comps)])
      else acc

/-- The item loop over one visited root. -/
def bodyLoop (excl : List AbsPath) (src : AbsPath) (t : ModTable)
    (root : AbsPath) (f : FSTree) : ModTable × List Item :=
  (bodyNames excl root f).foldl (processItem excl src root) (t, [])

/-- Result of (part of) a walk: the updated table, the changed items found,
and whether an `OSError` escaped to the handler at line 277. -/
structure ScanOut where
  table : ModTable
  changed : List Item
  raised : Bool
deriving DecidableEq

/-- Descent phase of `os.walk` below an already-visited root: for each
subdirectory entry in order, skip it if it was pruned from `dirs`
(lines 243-251); otherwise read it (`dirFail` models an `OSError` while
iterating the walk there, which aborts the whole `try` block, keeping the
changed items accumulated so far) and visit it.  The walk's own root-level
exclusion check (line 238) re-tests exactly the predicate that pruning just
decided false, so it never fires on a descended child. -/
def walkDescE (excl : List AbsPath) (src : AbsPath) (dirFail : AbsPath → Bool) :
    ModTable → AbsPath → FSTree → ScanOut
  | t, _, FSTree.nil => ⟨t, [], false⟩
  | t, root, FSTree.fileCons _ _ rest => walkDescE excl src dirFail t root rest
  | t, root, FSTree.dirCons n _ ch rest =>
    let child := childPath root n
    if is_path_excluded child excl then walkDescE excl src dirFail t root rest
    else if dirFail child then ⟨t, [], true⟩
    else
      let b := bodyLoop excl src t child ch
      let s1 := walkDescE excl src dirFail b.1 child ch
      if s1.raised then ⟨s1.table, b.2 ++ s1.changed, true⟩
      else
        let s2 := walkDescE excl src dirFail s1.table root rest
        ⟨s2.table, b.2 ++ s1.changed ++ s2.changed, s2.raised⟩

/-- One full scan of a source tree (the `try` block, lines 235-278): read
the source root (an immediate failure yields nothing), run the root-level
exclusion check (line 238: an excluded root is skipped entirely and nothing
is descended into), then the root's item loop and the descent. -/
def scanE (excl : List AbsPath) (src : AbsPath) (dirFail : AbsPath → Bool)
    (t : ModTable) (f : FSTree) : ScanOut :=
  if dirFail src then ⟨t, [], true⟩
  else if is_path_excluded src excl then ⟨t, [], false⟩
  else
    let b := bodyLoop excl src t src f
    let s := walkDescE excl src dirFail b.1 src f
    ⟨s.table, b.2 ++ s.changed, s.raised⟩

/-- The failure-free oracle: no directory read raises. -/
def noFail : AbsPath → Bool := fun _ => false

/-! ### Mathematical description of the scan, for the characterisation
theorems: which items a scan visits, independent of the table. -/

/-- The items the item loop visits at one root (exclusions applied). -/
def visitBody (excl : List AbsPath) (root : AbsPath) (f : FSTree) :
    List (AbsPath × Option Nat) :=
  (bodyNames excl root f).filterMap fun x =>
    let item := childPath root x.1
    if is_path_excluded item excl then Option.none else some (item, x.2)

/-- The items visited during the descent below a root. -/
def visitDesc (excl : List AbsPath) : AbsPath → FSTree → List (AbsPath × Option Nat)
  | _, FSTree.nil => []
  | root, FSTree.fileCons _ _ rest => visitDesc excl root rest
  | root, FSTree.dirCons n _ ch rest =>
    let child := childPath root n
    if is_path_excluded child excl then visitDesc excl root rest
    else visitBody excl child ch ++ visitDesc excl child ch ++ visitDesc excl root rest

/-- All items a failure-free scan visits, in visit order. -/
def visitAll (excl : List AbsPath) (src : AbsPath) (f : FSTree) :
    List (AbsPath × Option Nat) :=
  if is_path_excluded src excl then []
  else visitBody excl src f ++ visitDesc excl src f

/-- The changed items a visit sequence produces against a fixed table. -/
def changedOf (src : AbsPath) (t : ModTable) (vis : List (AbsPath × Option Nat)) :
    List Item :=
  vis.filterMap fun x =>
    match x.2 with
    | some m =>
      if m ≠ tblGetD t x.1 0 then some (x.1, relpathComps x.1.comps src.comps)
      else Option.none
    | Option.none => Option.none

/-- The table a visit sequence leaves behind. -/
def updTbl (t : ModTable) (vis : List (AbsPath × Option Nat)) : ModTable :=
  vis.foldl
    (fun acc x =>
      match x.2 with
      | some m => if m ≠ tblGetD acc x.1 0 then tblSet acc x.1 m else acc
      | Option.none => acc)
    t

/-- Well-formed visit sequence: no path is visited twice (true of any real
directory tree, where names are unique within a directory). -/
def pathsNodup (vis : List (AbsPath × Option Nat)) : Prop :=
  (vis.map Prod.fst).Nodup

instance (vis : List (AbsPath × Option Nat)) : Decidable (pathsNodup vis) :=
  inferInstanceAs (Decidable (vis.map Prod.fst).Nodup)

/-! ## Backup commit and one monitor-cycle turn
(`monitor_directories`, lines 280-321) -/

/-- The copy loop (lines 296-306): `copyOk` is the filesystem oracle for
`copy_item` (directories replaced wholesale, files overwritten); every item
is attempted in order regardless of earlier failures, and `backup_success`
is and-ed with each outcome.  Returns the per-item attempts with their
outcomes, and the final `backup_success` flag. -/
def performBackup (copyOk : AbsPath → Bool) : List Item → Bool → List (Item × Bool) × Bool
  | [], acc => ([], acc)
  | it :: rest, acc =>
    let ok := copyOk it.1
    let r := performBackup copyOk rest (acc && ok)
    ((it, ok) :: r.1, r.2)

/-- Result of one turn of the monitor loop for one source/backup pair. -/
structure CycleOut where
  table : ModTable
  version : PyStr
  commitRan : Bool
  changed : List Item
  backupSuccess : Bool
  raised : Bool
deriving DecidableEq

/-- One applicable turn for a pair (lines 231-321): scan; if any items
changed (line 281: `backup_needed` is set exactly when `changed_items` is
nonempty), parse the current version string, increment the build number,
attempt every copy, and adopt the new version only when every copy and the
config rewrite (`persistOk` models `update_config_version`) succeed.  The
`getD []` on the incremented version is unreachable because `parse_version`
always returns four components (theorem `parse_version_length`). -/
def cycleForPair (excl : List AbsPath) (copyOk : AbsPath → Bool) (persistOk : Bool)
    (dirFail : AbsPath → Bool) (src : AbsPath) (f : FSTree)
    (t : ModTable) (cur : PyStr) : CycleOut :=
  let s := scanE excl src dirFail t f
  if s.changed.isEmpty then ⟨s.table, cur, false, s.changed, true, s.raised⟩
  else
    let comps := parse_version cur
    let newVer := ((increment_build_number comps).map Prod.snd).getD []
    let ok := (performBackup copyOk s.changed true).2
    ⟨s.table, if ok && persistOk then newVer else cur, true, s.changed, ok, s.raised⟩

/-- The visited-items view of an arbitrary item-name list at one root
(generalisation of `visitBody` used by the fold lemmas). -/
def visOfNames (excl : List AbsPath) (root : AbsPath)
    (names : List (PyStr × Option Nat)) : List (AbsPath × Option Nat) :=
  names.filterMap fun x =>
    let item := childPath root x.1
    if is_path_excluded item excl then Option.none else some (item, x.2)

/-- `p` lies at or below `e`: same drive and `e`'s components are a prefix
of `p`'s ("`p` is `e` itself or a descendant of `e`"). -/
def descSelf (p e : AbsPath) : Prop :=
  p.drive = e.drive ∧ isUnder e.comps p.comps = true

instance (p e : AbsPath) : Decidable (descSelf p e) :=
  inferInstanceAs (Decidable (p.drive = e.drive ∧ isUnder e.comps p.comps = true))

/-! ## Theorems -/

/-! ### Decimal printing and parsing -/

theorem natToDigitsAux_eq_specDigits (fuel : Nat) :
    ∀ (n : Nat) (acc : List Char), n < fuel →
      natToDigitsAux fuel n acc = specDigits n ++ acc := by
  induction fuel with
  | zero => intro n acc h; omega
  | succ fuel ih =>
    intro n acc h
    rw [natToDigitsAux]
    by_cases h10 : n < 10
    · rw [if_pos h10, specDigits, dif_pos h10, List.singleton_append]
    · rw [if_neg h10, ih (n / 10) _ (by omega)]
      conv_rhs => rw [specDigits]
      rw [dif_neg h10]
      simp

theorem natToStr_eq_specDigits (n : Nat) : natToStr n = specDigits n := by
  rw [natToStr, natToDigitsAux_eq_specDigits (n + 1) n [] (Nat.lt_succ_self n),
    List.append_nil]

theorem digitChar_toNat (n : Nat) (h : n < 10) : (digitChar n).toNat = 48 + n := by
  interval_cases n <;> decide

theorem digitVal_digitChar (n : Nat) (h : n < 10) : digitVal (digitChar n) = n := by
  unfold digitVal; rw [digitChar_toNat n h]; omega

theorem isDigitCh_digitChar (n : Nat) (h : n < 10) : isDigitCh (digitChar n) = true := by
  unfold isDigitCh
  rw [digitChar_toNat n h]
  simp only [Bool.and_eq_true, decide_eq_true_eq]
  omega

theorem digitsVal_append_one (l : List Char) (c : Char) :
    digitsVal (l ++ [c]) = 10 * digitsVal l + digitVal c := by
  unfold digitsVal
  rw [List.foldl_append]
  rfl

theorem digitsVal_specDigits (n : Nat) : digitsVal (specDigits n) = n := by
  induction n using Nat.strong_induction_on with
  | _ n ih =>
    rw [specDigits]
    by_cases h10 : n < 10
    · rw [dif_pos h10]
      show digitsVal ([] ++ [digitChar n]) = n
      rw [digitsVal_append_one, digitVal_digitChar n h10]
      show 10 * 0 + n = n
      omega
    · rw [dif_neg h10, digitsVal_append_one,
        ih (n / 10) (Nat.div_lt_self (by omega) (by omega)),
        digitVal_digitChar (n % 10) (Nat.mod_lt _ (by omega))]
      omega

theorem mem_specDigits_digit (n : Nat) : ∀ c ∈ specDigits n, isDigitCh c = true := by
  induction n using Nat.strong_induction_on with
  | _ n ih =>
    rw [specDigits]
    by_cases h10 : n < 10
    · rw [dif_pos h10]
      intro c hc
      simp only [List.mem_singleton] at hc
      subst hc
      exact isDigitCh_digitChar n h10
    · rw [dif_neg h10]
      intro c hc
      rcases List.mem_append.mp hc with h | h
      · exact ih (n / 10) (Nat.div_lt_self (by omega) (by omega)) c h
      · simp only [List.mem_singleton] at h
        subst h
        exact isDigitCh_digitChar _ (Nat.mod_lt _ (by omega))

theorem specDigits_ne_nil (n : Nat) : specDigits n ≠ [] := by
  rw [specDigits]
  by_cases h10 : n < 10
  · rw [dif_pos h10]; simp
  · rw [dif_neg h10]; simp

theorem digit_not_dot (c : Char) (h : isDigitCh c = true) : c ≠ '.' := by
  intro he
  subst he
  exact absurd h (by decide)

theorem digit_not_space (c : Char) (h : isDigitCh c = true) : isSpaceChar c = false := by
  cases hb : isSpaceChar c
  · rfl
  · exfalso
    have hb2 := hb
    simp only [isSpaceChar, Bool.or_eq_true, decide_eq_true_eq] at hb2
    obtain ((((h1 | h1) | h1) | h1) | h1) | h1 := hb2 <;> subst h1 <;>
      exact absurd h (by decide)

/-! ### Splitting and joining on dots -/

theorem splitOnDot_no_dot (x : PyStr) (h : ∀ c ∈ x, c ≠ '.') : splitOnDot x = [x] := by
  induction x with
  | nil => rfl
  | cons c r ih =>
    simp only [splitOnDot]
    rw [if_neg (by simpa using h c (List.mem_cons_self c r)),
      ih (fun d hd => h d (List.mem_cons_of_mem _ hd))]

theorem splitOnDot_append_dot (x s : PyStr) (h : ∀ c ∈ x, c ≠ '.') :
    splitOnDot (x ++ '.' :: s) = x :: splitOnDot s := by
  induction x with
  | nil =>
    simp [splitOnDot]
  | cons c r ih =>
    simp only [List.cons_append, splitOnDot, List.append_eq]
    rw [if_neg (by simpa using h c (List.mem_cons_self c r)),
      ih (fun d hd => h d (List.mem_cons_of_mem _ hd))]

theorem splitOnDot_joinDot4 (p1 p2 p3 p4 : PyStr)
    (h1 : ∀ c ∈ p1, c ≠ '.') (h2 : ∀ c ∈ p2, c ≠ '.')
    (h3 : ∀ c ∈ p3, c ≠ '.') (h4 : ∀ c ∈ p4, c ≠ '.') :
    splitOnDot (joinDot [p1, p2, p3, p4]) = [p1, p2, p3, p4] := by
  show splitOnDot (p1 ++ '.' :: (p2 ++ '.' :: (p3 ++ '.' :: p4))) = _
  rw [splitOnDot_append_dot _ _ h1, splitOnDot_append_dot _ _ h2,
    splitOnDot_append_dot _ _ h3, splitOnDot_no_dot _ h4]

theorem dropWhile_of_none (l : PyStr) (h : ∀ c ∈ l, isSpaceChar c = false) :
    l.dropWhile isSpaceChar = l := by
  cases l with
  | nil => rfl
  | cons c r =>
    rw [List.dropWhile_cons, if_neg]
    simp [h c (List.mem_cons_self c r)]

theorem pyStrip_no_space (s : PyStr) (h : ∀ c ∈ s, isSpaceChar c = false) :
    pyStrip s = s := by
  unfold pyStrip
  rw [dropWhile_of_none s h,
    dropWhile_of_none s.reverse (fun c hc => h c (List.mem_reverse.mp hc)),
    List.reverse_reverse]

theorem mem_joinDot4 (p1 p2 p3 p4 : PyStr) (c : Char)
    (hc : c ∈ joinDot [p1, p2, p3, p4]) :
    c ∈ p1 ∨ c ∈ p2 ∨ c ∈ p3 ∨ c ∈ p4 ∨ c = '.' := by
  have hc2 : c ∈ p1 ++ '.' :: (p2 ++ '.' :: (p3 ++ '.' :: p4)) := hc
  simp only [List.mem_append, List.mem_cons] at hc2
  tauto

/-! ### `parse_version` and `formatVersion` facts -/

theorem verStr_no_space (a b c d : Nat) :
    ∀ ch ∈ verStr a b c d, isSpaceChar ch = false := by
  intro ch hch
  unfold verStr at hch
  have key : ∀ n : Nat, ch ∈ natToStr n → isSpaceChar ch = false := by
    intro n hn
    rw [natToStr_eq_specDigits] at hn
    exact digit_not_space ch (mem_specDigits_digit n ch hn)
  rcases mem_joinDot4 _ _ _ _ ch hch with h | h | h | h | h
  · exact key a h
  · exact key b h
  · exact key c h
  · exact key d h
  · subst h; decide

theorem splitOnDot_verStr (a b c d : Nat) :
    splitOnDot (verStr a b c d) = [natToStr a, natToStr b, natToStr c, natToStr d] := by
  unfold verStr
  have key : ∀ n : Nat, ∀ ch ∈ natToStr n, ch ≠ '.' := by
    intro n ch hn
    rw [natToStr_eq_specDigits] at hn
    exact digit_not_dot ch (mem_specDigits_digit n ch hn)
  exact splitOnDot_joinDot4 _ _ _ _ (key a) (key b) (key c) (key d)

theorem natToStr_group_ok (n : Nat) :
    (!(natToStr n).isEmpty && (natToStr n).all isDigitCh) = true := by
  rw [natToStr_eq_specDigits]
  simp only [Bool.and_eq_true, Bool.not_eq_true']
  constructor
  · cases hsd : specDigits n with
    | nil => exact absurd hsd (specDigits_ne_nil n)
    | cons x xs => rfl
  · rw [List.all_eq_true]
    exact mem_specDigits_digit n

theorem regexMatch4_verStr (a b c d : Nat) :
    regexMatch4 (verStr a b c d) = some [a, b, c, d] := by
  unfold regexMatch4
  rw [splitOnDot_verStr]
  simp only [List.all_cons, List.all_nil, natToStr_group_ok, List.length_cons,
    List.length_nil, Bool.and_true, Bool.true_and]
  norm_num
  simp only [natToStr_eq_specDigits, digitsVal_specDigits]
  exact ⟨trivial, trivial, trivial, trivial⟩

theorem pyStrip_verStr (a b c d : Nat) : pyStrip (verStr a b c d) = verStr a b c d :=
  pyStrip_no_space _ (verStr_no_space a b c d)

theorem parse_version_verStr (a b c d : Nat) :
    parse_version (verStr a b c d) = [(a : Int), (b : Int), (c : Int), (d : Int)] := by
  unfold parse_version parse_version_strE
  rw [pyStrip_verStr, regexMatch4_verStr]
  rfl

theorem intToStr_ofNat (a : Nat) : intToStr (a : Int) = natToStr a := by
  unfold intToStr
  rw [if_neg (by omega), Int.toNat_ofNat]

theorem formatVersion_ofNat4 (a b c d : Nat) :
    formatVersion [(a : Int), (b : Int), (c : Int), (d : Int)] = verStr a b c d := by
  unfold formatVersion verStr
  simp only [List.map_cons, List.map_nil, intToStr_ofNat]

theorem regexMatch4_some_length (s : PyStr) (l : List Nat)
    (h : regexMatch4 s = some l) : l.length = 4 := by
  simp only [regexMatch4] at h
  split at h
  · rename_i hc
    simp only [Bool.and_eq_true, decide_eq_true_eq] at hc
    cases h
    rw [List.length_map]
    exact hc.1
  · cases h

theorem intListAll_length (xs : List PyStr) (ys : List Int)
    (h : intListAll xs = some ys) : ys.length = xs.length := by
  induction xs generalizing ys with
  | nil => cases h; rfl
  | cons x r ih =>
    unfold intListAll at h
    cases hx : pyInt x with
    | none => rw [hx] at h; cases h
    | some i =>
      rw [hx] at h
      cases hr : intListAll r with
      | none => rw [hr] at h; cases h
      | some l2 =>
        rw [hr] at h
        cases h
        simp [ih l2 hr]

theorem pad4_take_length (parts : List PyStr) : ((pad4 parts).take 4).length = 4 := by
  simp only [pad4, List.length_take, List.length_append, List.length_replicate]
  omega

theorem parse_version_strE_ok_length (s : PyStr) (l : List Int)
    (h : parse_version_strE s = Except.ok l) : l.length = 4 := by
  unfold parse_version_strE at h
  cases hr : regexMatch4 (pyStrip s) with
  | some l2 =>
    rw [hr] at h
    cases h
    rw [List.length_map]
    exact regexMatch4_some_length _ _ hr
  | none =>
    rw [hr] at h
    cases hi : intListAll ((pad4 (splitOnDot s)).take 4) with
    | some l3 =>
      rw [hi] at h
      cases h
      rw [intListAll_length _ _ hi]
      exact pad4_take_length _
    | none => rw [hi] at h; cases h

theorem parse_version_strE_error (s : PyStr) (e : PyExc)
    (h : parse_version_strE s = Except.error e) : e = PyExc.valueError := by
  unfold parse_version_strE at h
  cases hr : regexMatch4 (pyStrip s) with
  | some l2 => rw [hr] at h; cases h
  | none =>
    rw [hr] at h
    cases hi : intListAll ((pad4 (splitOnDot s)).take 4) with
    | some l3 => rw [hi] at h; cases h
    | none => rw [hi] at h; cases h; rfl

theorem parse_version_length (s : PyStr) : (parse_version s).length = 4 := by
  unfold parse_version
  cases h : parse_version_strE s with
  | ok l => exact parse_version_strE_ok_length s l h
  | error e => rfl

theorem parse_version_py_str (s : PyStr) :
    parse_version_py (PyVal.str s) = Except.ok (parse_version s) := by
  have h1 : parse_version_try (PyVal.str s) = parse_version_strE s := rfl
  unfold parse_version_py
  rw [h1]
  cases h : parse_version_strE s with
  | ok l =>
    unfold parse_version
    rw [h]
  | error e =>
    have hev := parse_version_strE_error s e h
    subst hev
    unfold parse_version
    rw [h]

/-! ### Claim C7 (corrected): parse-then-format identity -/

/-- Claim C7, as stated, is false: `"1.2.3.04"` is a valid 4-component
version string (four dot-separated numeric components), yet parsing
discards the leading zero, so formatting the parsed components yields
`"1.2.3.4"`, not the original string. -/
theorem c7_counterexample :
    isValid4 (pstr "1.2.3.04") = true ∧
      formatVersion (parse_version (pstr "1.2.3.04")) ≠ pstr "1.2.3.04" := by
  decide

/-- Claim C7 as amended: for every 4-component version string whose
components are canonical decimal numerals (no leading zeros, no sign, no
surrounding whitespace), parsing and then formatting with `'.'` joins
returns the original string; parsing such a string recovers exactly its
four numeric components. -/
theorem c7_parse_format_identity (a b c d : Nat) :
    parse_version (verStr a b c d) = [(a : Int), (b : Int), (c : Int), (d : Int)] ∧
      formatVersion (parse_version (verStr a b c d)) = verStr a b c d := by
  refine ⟨parse_version_verStr a b c d, ?_⟩
  rw [parse_version_verStr a b c d, formatVersion_ofNat4]

/-! ### Claim C8 (confirmed): incrementing the build number -/

/-- Claim C8: for every 4-component version value, `increment_build_number`
never fails and produces exactly the version whose 4th component is one
greater, the other three unchanged, together with its dot-joined rendering
(never lossy). -/
theorem c8_increment_build (a b c d : Int) :
    increment_build_number [a, b, c, d]
      = some ([a, b, c, d + 1], formatVersion [a, b, c, d + 1]) := by
  rfl

/-! ### Claim C10 (corrected): totality of version parsing -/

/-- Claim C10, as stated, is false: `parse_version` does raise for a
bytes-like argument, because `re.match` with a `str` pattern raises
`TypeError`, which the `except (ValueError, AttributeError)` handler does
not catch. -/
theorem c10_counterexample :
    parse_version_py (PyVal.bytes (pstr "1.2.3.4")) = Except.error PyExc.typeError := by
  rfl

/-- Claim C10 as amended: for every argument that is not a bytes-like
value — every string (of any shape: wrong number of dot-separated parts,
non-numeric components, the empty string) and every strip-less non-string
value — `parse_version` raises no exception and returns a list of exactly
four integers, falling back to `[1, 0, 0, 0]` when no numeric
interpretation exists. -/
theorem c10_total_except_bytes (v : PyVal) (h : ∀ b, v ≠ PyVal.bytes b) :
    ∃ l, parse_version_py v = Except.ok l ∧ l.length = 4 := by
  cases v with
  | str s =>
    exact ⟨parse_version s, parse_version_py_str s, parse_version_length s⟩
  | bytes b => exact absurd rfl (h b)
  | int n => exact ⟨[1, 0, 0, 0], rfl, rfl⟩
  | pyNone => exact ⟨[1, 0, 0, 0], rfl, rfl⟩

/-- Witness for `c10_total_except_bytes` at the concrete non-string value
`None`. -/
theorem c10_total_except_bytes_witness :
    (∀ b, PyVal.pyNone ≠ PyVal.bytes b) ∧
      ∃ l, parse_version_py PyVal.pyNone = Except.ok l ∧ l.length = 4 :=
  ⟨fun _ h => PyVal.noConfusion h,
   c10_total_except_bytes PyVal.pyNone (fun _ h => PyVal.noConfusion h)⟩

/-! ### Relative-path facts for exclusion matching -/

theorem isUnder_refl (l : List PyStr) : isUnder l l = true := by
  induction l with
  | nil => rfl
  | cons a r ih => simp [isUnder, ih]

theorem relpathComps_of_under (q p : List PyStr) (h : isUnder q p = true) :
    relpathComps p q = p.drop q.length := by
  induction q generalizing p with
  | nil => cases p <;> rfl
  | cons b q2 ih =>
    cases p with
    | nil => exact absurd h (by simp [isUnder])
    | cons a p2 =>
      simp only [isUnder, Bool.and_eq_true, decide_eq_true_eq] at h
      rw [relpathComps, if_pos h.1.symm]
      exact ih p2 h.2

theorem eq_append_drop_of_under (q p : List PyStr) (h : isUnder q p = true) :
    p = q ++ p.drop q.length := by
  induction q generalizing p with
  | nil => rfl
  | cons b q2 ih =>
    cases p with
    | nil => exact absurd h (by simp [isUnder])
    | cons a p2 =>
      simp only [isUnder, Bool.and_eq_true, decide_eq_true_eq] at h
      rw [h.1]
      simpa using ih p2 h.2

theorem isUnder_of_relpathComps_nil (p q : List PyStr)
    (h : relpathComps p q = []) : isUnder q p = true := by
  induction p generalizing q with
  | nil =>
    cases q with
    | nil => rfl
    | cons b q2 => exact absurd h (by simp [relpathComps])
  | cons a p2 ih =>
    cases q with
    | nil => exact absurd h (by simp [relpathComps])
    | cons b q2 =>
      by_cases hab : a = b
      · rw [relpathComps, if_pos hab] at h
        simp only [isUnder, Bool.and_eq_true, decide_eq_true_eq]
        exact ⟨hab.symm, ih q2 h⟩
      · rw [relpathComps, if_neg hab] at h
        exact absurd h (by simp)

theorem startsDD_relpath_not_under (p q : List PyStr) (h : isUnder q p = false) :
    startsDD (relpathRaw p q) = true := by
  induction p generalizing q with
  | nil =>
    cases q with
    | nil => exact absurd h (by simp [isUnder])
    | cons b q2 =>
      show startsDD (relpathRaw [] (b :: q2)) = true
      simp [relpathRaw, relpathComps, startsDD, List.replicate, compStartsDD]
  | cons a p2 ih =>
    cases q with
    | nil => exact absurd h (by simp [isUnder])
    | cons b q2 =>
      simp only [isUnder, Bool.and_eq_true, Bool.and_eq_false_iff,
        decide_eq_true_eq, decide_eq_false_iff_not] at h
      by_cases hab : a = b
      · have hq : isUnder q2 p2 = false := by
          rcases h with h | h
          · exact absurd hab.symm h
          · exact h
        have hnil : relpathComps p2 q2 ≠ [] := by
          intro hn
          rw [isUnder_of_relpathComps_nil p2 q2 hn] at hq
          cases hq
        have hrec := ih q2 hq
        unfold relpathRaw at hrec ⊢
        rw [relpathComps, if_pos hab]
        rw [if_neg hnil] at hrec ⊢
        exact hrec
      · unfold relpathRaw
        rw [relpathComps, if_neg hab]
        simp [startsDD, List.replicate, compStartsDD]

theorem drop_ne_nil_of_under_ne (q p : List PyStr) (h : isUnder q p = true)
    (hne : q ≠ p) : p.drop q.length ≠ [] := by
  intro hd
  apply hne
  have := eq_append_drop_of_under q p h
  rw [hd, List.append_nil] at this
  exact this.symm

/-! ### Claim C3 (corrected): exclusion matching -/

/-- Claim C3, as stated, is false: `/x/..y` is a strict descendant of the
excluded path `/x`, but its relative path from `/x` is the single component
`..y`, whose rendering starts with the two characters `..`, so
`is_path_excluded` reports it as not excluded. -/
theorem c3_counterexample :
    isUnder (AbsPath.mk [] [pstr "x"]).comps
        (AbsPath.mk [] [pstr "x", pstr "..y"]).comps = true ∧
      AbsPath.mk [] [pstr "x", pstr "..y"] ≠ AbsPath.mk [] [pstr "x"] ∧
      is_path_excluded (AbsPath.mk [] [pstr "x", pstr "..y"])
        [AbsPath.mk [] [pstr "x"]] = false := by
  decide

/-- Claim C3 as amended: `is_path_excluded p E` holds iff `p` equals a
member of `E`, or `p` is a descendant of a member of `E` whose first
component below that member does not itself begin with the characters `..`;
in particular a sibling sharing only a string prefix (`/a/bc` against
excluded `/a/b`) is not excluded, and paths on different filesystem roots
(the `ValueError` case of `os.path.relpath`) are treated as not excluded
rather than raising. -/
theorem c3_excluded_characterisation (p : AbsPath) (E : List AbsPath) :
    (is_path_excluded p E = true ↔ codeExcludedC3 p E) ∧
      is_path_excluded ⟨[], [pstr "a", pstr "bc"]⟩ [⟨[], [pstr "a", pstr "b"]⟩] = false ∧
      is_path_excluded ⟨pstr "C:", [pstr "x"]⟩ [⟨pstr "D:", [pstr "x"]⟩] = false := by
  refine ⟨?_, by decide, by decide⟩
  unfold is_path_excluded codeExcludedC3
  rw [List.any_eq_true]
  constructor
  · rintro ⟨e, he, hpred⟩
    refine ⟨e, he, ?_⟩
    simp only [Bool.or_eq_true, decide_eq_true_eq] at hpred
    rcases hpred with hpe | hrel
    · exact Or.inl hpe
    · split at hrel
      · rename_i hdr
        rw [Bool.not_eq_true'] at hrel
        have hu : isUnder e.comps p.comps = true := by
          by_contra hu2
          rw [Bool.not_eq_true] at hu2
          rw [startsDD_relpath_not_under p.comps e.comps hu2] at hrel
          cases hrel
        by_cases heq : e.comps = p.comps
        · left
          cases p
          cases e
          simp_all
        · right
          refine ⟨hdr, hu, heq, ?_⟩
          unfold relpathRaw at hrel
          rw [relpathComps_of_under e.comps p.comps hu] at hrel
          rw [if_neg (drop_ne_nil_of_under_ne e.comps p.comps hu heq)] at hrel
          cases hd : p.comps.drop e.comps.length with
          | nil =>
            exact absurd hd (drop_ne_nil_of_under_ne e.comps p.comps hu heq)
          | cons x xs =>
            rw [hd] at hrel
            simpa [startsDD] using hrel
      · cases hrel
  · rintro ⟨e, he, hcase⟩
    refine ⟨e, he, ?_⟩
    simp only [Bool.or_eq_true, decide_eq_true_eq]
    rcases hcase with hpe | ⟨hdr, hu, hne, hdd⟩
    · exact Or.inl hpe
    · right
      rw [if_pos hdr, Bool.not_eq_true']
      unfold relpathRaw
      rw [relpathComps_of_under e.comps p.comps hu,
        if_neg (drop_ne_nil_of_under_ne e.comps p.comps hu hne)]
      cases hd : p.comps.drop e.comps.length with
      | nil => exact absurd hd (drop_ne_nil_of_under_ne e.comps p.comps hu hne)
      | cons x xs =>
        rw [hd] at hdd
        simpa [startsDD] using hdd

/-! ### Claim C9 (corrected): building the exclusion map -/

theorem mem_mapSet (m : List (Int × List PyStr)) (k : Int) (v : List PyStr)
    (kv : Int × List PyStr) (h : kv ∈ mapSet m k v) : kv = (k, v) ∨ kv ∈ m := by
  induction m with
  | nil => simpa [mapSet] using h
  | cons x r ih =>
    unfold mapSet at h
    by_cases hk : x.1 = k
    · rw [if_pos hk] at h
      rcases List.mem_cons.mp h with h1 | h1
      · left; rw [h1, hk]
      · right; exact List.mem_cons_of_mem _ h1
    · rw [if_neg hk] at h
      rcases List.mem_cons.mp h with h1 | h1
      · right; rw [h1]; exact List.mem_cons_self _ _
      · rcases ih h1 with h2 | h2
        · exact Or.inl h2
        · exact Or.inr (List.mem_cons_of_mem _ h2)

theorem pyListGet_some_bounds (l : List PyStr) (i : Int) (x : PyStr)
    (h : pyListGet l i = some x) : -(l.length : Int) ≤ i ∧ i < (l.length : Int) := by
  unfold pyListGet at h
  by_cases h0 : 0 ≤ i
  · rw [if_pos h0] at h
    obtain ⟨hlt, -⟩ := List.get?_eq_some.mp h
    omega
  · rw [if_neg h0] at h
    by_cases h1 : 0 ≤ (l.length : Int) + i
    · rw [if_pos h1] at h
      obtain ⟨hlt, -⟩ := List.get?_eq_some.mp h
      omega
    · rw [if_neg h1] at h
      cases h

/-- The property every entry of the built exclusion map satisfies. -/
def exMapEntryOK (norm : PyStr → PyStr) (dict : List (PyStr × ExVal))
    (source_dirs : List PyStr) (kv : Int × List PyStr) : Prop :=
  (-(source_dirs.length : Int) ≤ kv.1 ∧ kv.1 < (source_dirs.length : Int)) ∧
    ∃ pair ∈ dict, pyInt pair.1 = some kv.1 ∧
      ∃ sdir, pyListGet source_dirs kv.1 = some sdir ∧
        kv.2 = (coerceList pair.2).filterMap (procEntry norm (norm sdir))

theorem normalize_excluded_paths_fold_inv (norm : PyStr → PyStr)
    (source_dirs : List PyStr) (univ : List (PyStr × ExVal)) :
    ∀ (dict : List (PyStr × ExVal)) (acc : List (Int × List PyStr) × List PyStr),
      (∀ p ∈ dict, p ∈ univ) →
      (∀ kv ∈ acc.1, exMapEntryOK norm univ source_dirs kv) →
      ∀ kv ∈ (dict.foldl
          (fun acc kv =>
            match pyInt kv.1 with
            | Option.none => (acc.1, acc.2 ++ [kv.1])
            | some index =>
              if index < (source_dirs.length : Int) then
                match pyListGet source_dirs index with
                | Option.none => (acc.1, acc.2 ++ [kv.1])
                | some sd =>
                  let src := norm sd
                  (mapSet acc.1 index ((coerceList kv.2).filterMap (procEntry norm src)),
                    acc.2)
              else acc)
          acc).1,
        exMapEntryOK norm univ source_dirs kv := by
  intro dict
  induction dict with
  | nil => intro acc _ hacc kv hkv; exact hacc kv hkv
  | cons x rest ih =>
    intro acc hsub hacc kv hkv
    rw [List.foldl_cons] at hkv
    refine ih _ (fun p hp => hsub p (List.mem_cons_of_mem _ hp)) ?_ kv hkv
    intro kv2 hkv2
    cases hx : pyInt x.1 with
    | none =>
      rw [hx] at hkv2
      exact hacc kv2 hkv2
    | some index =>
      rw [hx] at hkv2
      simp only at hkv2
      by_cases hlt : index < (source_dirs.length : Int)
      · rw [if_pos hlt] at hkv2
        cases hg : pyListGet source_dirs index with
        | none =>
          rw [hg] at hkv2
          exact hacc kv2 hkv2
        | some sd =>
          rw [hg] at hkv2
          simp only at hkv2
          rcases mem_mapSet _ _ _ _ hkv2 with h1 | h1
          · subst h1
            refine ⟨?_, x, hsub x (List.mem_cons_self _ _), hx, sd, hg, rfl⟩
            exact pyListGet_some_bounds source_dirs index sd hg
          · exact hacc kv2 h1
      · rw [if_neg hlt] at hkv2
        exact hacc kv2 hkv2

/-- Claim C9, as stated, is false in two ways: the key `"-1"` passes the
`index < len(source_dirs)` test and Python's negative indexing resolves
`source_dirs[-1]`, so the built map contains index `-1`, which is not a
valid source-directory index; and an index that is at least the number of
source directories (here `"7"` with one source) is dropped with no warning
(the warning fires only for keys whose `int` or indexing raises). -/
theorem c9_counterexample :
    (normalize_excluded_paths id [(pstr "-1", ExVal.one (pstr "/x"))] [pstr "/s"]).1
        = [(-1, [pstr "/x"])] ∧
      ¬(0 ≤ (-1 : Int)) ∧
      normalize_excluded_paths id [(pstr "7", ExVal.one (pstr "/x"))] [pstr "/s"]
        = ([], []) := by
  decide

/-- Claim C9 as amended: every index present in the built exclusion map lies
in `[-n, n)` where `n` is the number of source directories (negative keys
are admitted through Python negative indexing; keys at or above `n` are
dropped, silently; keys that fail integer parsing or indexing are dropped
with a warning), and its entry list is obtained from that key's raw entry —
a single string coerced to a one-element list — by trimming whitespace,
dropping empties, normalising absolute entries directly and resolving
relative entries against that index's normalised source directory. -/
theorem c9_exclusion_map_invariant (norm : PyStr → PyStr)
    (dict : List (PyStr × ExVal)) (source_dirs : List PyStr)
    (kv : Int × List PyStr)
    (hkv : kv ∈ (normalize_excluded_paths norm dict source_dirs).1) :
    exMapEntryOK norm dict source_dirs kv := by
  unfold normalize_excluded_paths at hkv
  exact normalize_excluded_paths_fold_inv norm source_dirs dict dict ([], [])
    (fun p hp => hp) (fun kv2 hkv2 => absurd hkv2 (List.not_mem_nil kv2)) kv hkv

/-- Witness for `c9_exclusion_map_invariant` at a concrete configuration. -/
theorem c9_exclusion_map_invariant_witness :
    (0, [pstr "/s/sub"]) ∈
        (normalize_excluded_paths id [(pstr "0", ExVal.one (pstr " sub "))] [pstr "/s"]).1 ∧
      exMapEntryOK id [(pstr "0", ExVal.one (pstr " sub "))] [pstr "/s"]
        (0, [pstr "/s/sub"]) :=
  ⟨by decide,
   c9_exclusion_map_invariant id [(pstr "0", ExVal.one (pstr " sub "))] [pstr "/s"]
     (0, [pstr "/s/sub"]) (by decide)⟩

/-! ### Modification-time table facts -/

theorem tblGet_tblSet_self (t : ModTable) (p : AbsPath) (v : Nat) :
    tblGet (tblSet t p v) p = some v := by
  induction t with
  | nil => simp [tblSet, tblGet]
  | cons x r ih =>
    obtain ⟨k, w⟩ := x
    unfold tblSet
    by_cases h : k = p
    · rw [if_pos h]
      unfold tblGet
      rw [if_pos h]
    · rw [if_neg h]
      unfold tblGet
      rw [if_neg h]
      exact ih

theorem tblGet_tblSet_ne (t : ModTable) (p q : AbsPath) (v : Nat) (h : q ≠ p) :
    tblGet (tblSet t p v) q = tblGet t q := by
  induction t with
  | nil =>
    unfold tblSet tblGet
    rw [if_neg (Ne.symm h)]
    rfl
  | cons x r ih =>
    obtain ⟨k, w⟩ := x
    unfold tblSet
    by_cases hk : k = p
    · rw [if_pos hk]
      unfold tblGet
      by_cases hq : k = q
      · exact absurd (hq.symm.trans hk) h
      · rw [if_neg hq, if_neg hq]
    · rw [if_neg hk]
      unfold tblGet
      by_cases hq : k = q
      · rw [if_pos hq, if_pos hq]
      · rw [if_neg hq, if_neg hq]
        exact ih

theorem updTbl_append (t : ModTable) (v1 v2 : List (AbsPath × Option Nat)) :
    updTbl t (v1 ++ v2) = updTbl (updTbl t v1) v2 := by
  unfold updTbl
  exact List.foldl_append _ _ _ _

theorem updTbl_get_notin (vis : List (AbsPath × Option Nat)) :
    ∀ (t : ModTable) (p : AbsPath), p ∉ vis.map Prod.fst →
      tblGet (updTbl t vis) p = tblGet t p := by
  induction vis with
  | nil => intro t p _; rfl
  | cons x rest ih =>
    obtain ⟨xp, xm⟩ := x
    intro t p hp
    rw [List.map_cons, List.mem_cons] at hp
    push_neg at hp
    cases xm with
    | none =>
      show tblGet (updTbl t rest) p = tblGet t p
      exact ih t p hp.2
    | some m =>
      show tblGet (updTbl (if m ≠ tblGetD t xp 0 then tblSet t xp m else t) rest) p
        = tblGet t p
      by_cases hne : m ≠ tblGetD t xp 0
      · rw [if_pos hne, ih (tblSet t xp m) p hp.2]
        exact tblGet_tblSet_ne t xp p m hp.1
      · rw [if_neg hne]
        exact ih t p hp.2

theorem tblGetD_updTbl_notin (vis : List (AbsPath × Option Nat)) (t : ModTable)
    (p : AbsPath) (h : p ∉ vis.map Prod.fst) :
    tblGetD (updTbl t vis) p 0 = tblGetD t p 0 := by
  unfold tblGetD
  rw [updTbl_get_notin vis t p h]

theorem changedOf_append (src : AbsPath) (t : ModTable)
    (v1 v2 : List (AbsPath × Option Nat)) :
    changedOf src t (v1 ++ v2) = changedOf src t v1 ++ changedOf src t v2 := by
  unfold changedOf
  exact List.filterMap_append _ _ _

theorem changedOf_congr (src : AbsPath) (t1 t2 : ModTable)
    (vis : List (AbsPath × Option Nat))
    (h : ∀ q ∈ vis.map Prod.fst, tblGetD t1 q 0 = tblGetD t2 q 0) :
    changedOf src t1 vis = changedOf src t2 vis := by
  unfold changedOf
  refine List.filterMap_congr ?_
  intro x hx
  obtain ⟨q, mt⟩ := x
  have hq : tblGetD t1 q 0 = tblGetD t2 q 0 := h q (List.mem_map_of_mem Prod.fst hx)
  cases mt with
  | none => rfl
  | some m =>
    show (if m ≠ tblGetD t1 q 0 then some (q, relpathComps q.comps src.comps) else Option.none)
      = (if m ≠ tblGetD t2 q 0 then some (q, relpathComps q.comps src.comps) else Option.none)
    rw [hq]

theorem changedOf_updTbl_disjoint (src : AbsPath) (t : ModTable)
    (v1 v2 : List (AbsPath × Option Nat))
    (hd : ∀ q ∈ v2.map Prod.fst, q ∉ v1.map Prod.fst) :
    changedOf src (updTbl t v1) v2 = changedOf src t v2 := by
  refine changedOf_congr src _ t v2 ?_
  intro q hq
  exact tblGetD_updTbl_notin v1 t q (hd q hq)

theorem pathsNodup_append (v1 v2 : List (AbsPath × Option Nat))
    (h : pathsNodup (v1 ++ v2)) :
    pathsNodup v1 ∧ pathsNodup v2 ∧
      ∀ q ∈ v2.map Prod.fst, q ∉ v1.map Prod.fst := by
  unfold pathsNodup at *
  rw [List.map_append, List.nodup_append] at h
  exact ⟨h.1, h.2.1, fun q hq2 hq1 => h.2.2 hq1 hq2⟩

/-! ### Characterisation of the scan: the changed list and updated table are
the visit sequence filtered/folded against the initial table -/

theorem pathsNodup_cons (v : AbsPath × Option Nat) (vis : List (AbsPath × Option Nat))
    (h : pathsNodup (v :: vis)) : v.1 ∉ vis.map Prod.fst ∧ pathsNodup vis := by
  unfold pathsNodup at *
  rw [List.map_cons, List.nodup_cons] at h
  exact h

theorem updTbl_cons_some (t : ModTable) (p : AbsPath) (m : Nat)
    (vis : List (AbsPath × Option Nat)) :
    updTbl t ((p, some m) :: vis)
      = updTbl (if m ≠ tblGetD t p 0 then tblSet t p m else t) vis := rfl

theorem updTbl_cons_none (t : ModTable) (p : AbsPath)
    (vis : List (AbsPath × Option Nat)) :
    updTbl t ((p, Option.none) :: vis) = updTbl t vis := rfl

theorem changedOf_cons_none (src : AbsPath) (t : ModTable) (p : AbsPath)
    (vis : List (AbsPath × Option Nat)) :
    changedOf src t ((p, Option.none) :: vis) = changedOf src t vis := rfl

theorem changedOf_cons_some_pos (src : AbsPath) (t : ModTable) (p : AbsPath) (m : Nat)
    (vis : List (AbsPath × Option Nat)) (hne : m ≠ tblGetD t p 0) :
    changedOf src t ((p, some m) :: vis)
      = (p, relpathComps p.comps src.comps) :: changedOf src t vis := by
  unfold changedOf
  rw [List.filterMap_cons]
  simp [hne]

theorem changedOf_cons_some_neg (src : AbsPath) (t : ModTable) (p : AbsPath) (m : Nat)
    (vis : List (AbsPath × Option Nat)) (heq : ¬m ≠ tblGetD t p 0) :
    changedOf src t ((p, some m) :: vis) = changedOf src t vis := by
  unfold changedOf
  rw [List.filterMap_cons]
  simp [heq]

theorem bodyFold (excl : List AbsPath) (src root : AbsPath) :
    ∀ (names : List (PyStr × Option Nat)) (t : ModTable) (c : List Item),
      pathsNodup (visOfNames excl root names) →
      names.foldl (processItem excl src root) (t, c)
        = (updTbl t (visOfNames excl root names),
            c ++ changedOf src t (visOfNames excl root names)) := by
  intro names
  induction names with
  | nil =>
    intro t c _
    simp [visOfNames, updTbl, changedOf]
  | cons x rest ih =>
    obtain ⟨n, mt⟩ := x
    intro t c h
    rw [List.foldl_cons]
    by_cases hex : is_path_excluded (childPath root n) excl
    · have hv : visOfNames excl root ((n, mt) :: rest) = visOfNames excl root rest := by
        simp [visOfNames, List.filterMap_cons, hex]
      rw [hv] at h ⊢
      have hp : processItem excl src root (t, c) (n, mt) = (t, c) := by
        simp [processItem, hex]
      rw [hp]
      exact ih t c h
    · have hv : visOfNames excl root ((n, mt) :: rest)
          = (childPath root n, mt) :: visOfNames excl root rest := by
        simp [visOfNames, List.filterMap_cons, hex]
      rw [hv] at h ⊢
      obtain ⟨hnotin, hrest⟩ := pathsNodup_cons _ _ h
      cases mt with
      | none =>
        have hp : processItem excl src root (t, c) (n, Option.none) = (t, c) := by
          simp [processItem, hex]
        rw [hp, updTbl_cons_none, changedOf_cons_none]
        exact ih t c hrest
      | some m =>
        rw [updTbl_cons_some]
        by_cases hne : m ≠ tblGetD t (childPath root n) 0
        · have hp : processItem excl src root (t, c) (n, some m)
              = (tblSet t (childPath root n) m,
                 c ++ [(childPath root n,
                   relpathComps (childPath root n).comps src.comps)]) := by
            simp [processItem, hex, hne]
          have hcg : changedOf src (tblSet t (childPath root n) m)
                (visOfNames excl root rest)
              = changedOf src t (visOfNames excl root rest) := by
            refine changedOf_congr src _ t _ ?_
            intro q hq
            unfold tblGetD
            rw [tblGet_tblSet_ne t (childPath root n) q m ?hq2]
            case hq2 =>
              intro hqe
              rw [hqe] at hq
              exact hnotin hq
          rw [hp, if_pos hne, ih _ _ hrest, hcg,
            changedOf_cons_some_pos src t _ m _ hne]
          simp
        · have hp : processItem excl src root (t, c) (n, some m) = (t, c) := by
            simp [processItem, hex, hne]
          rw [hp, if_neg hne, ih t c hrest, changedOf_cons_some_neg src t _ m _ hne]

theorem visitBody_eq (excl : List AbsPath) (root : AbsPath) (f : FSTree) :
    visitBody excl root f = visOfNames excl root (bodyNames excl root f) := rfl

theorem bodyLoop_eq (excl : List AbsPath) (src : AbsPath) (t : ModTable)
    (root : AbsPath) (f : FSTree) (h : pathsNodup (visitBody excl root f)) :
    bodyLoop excl src t root f
      = (updTbl t (visitBody excl root f), changedOf src t (visitBody excl root f)) := by
  unfold bodyLoop
  rw [visitBody_eq] at h
  rw [visitBody_eq, bodyFold excl src root (bodyNames excl root f) t [] h]
  simp

theorem walkDesc_char (excl : List AbsPath) (src : AbsPath) :
    ∀ (f : FSTree) (root : AbsPath) (t : ModTable),
      pathsNodup (visitDesc excl root f) →
      walkDescE excl src noFail t root f
        = ⟨updTbl t (visitDesc excl root f),
           changedOf src t (visitDesc excl root f), false⟩ := by
  intro f
  induction f with
  | nil => intro root t _; rfl
  | fileCons n m rest ih =>
    intro root t h
    simp only [walkDescE, visitDesc] at h ⊢
    exact ih root t h
  | dirCons n m ch rest ihch ihrest =>
    intro root t h
    simp only [visitDesc] at h ⊢
    simp only [walkDescE]
    by_cases hex : is_path_excluded (childPath root n) excl
    · simp only [if_pos hex] at h ⊢
      exact ihrest root t h
    · simp only [if_neg hex] at h ⊢
      obtain ⟨h12, h3, hd3⟩ := pathsNodup_append _ _ h
      obtain ⟨h1, h2, hd2⟩ := pathsNodup_append _ _ h12
      have hb := bodyLoop_eq excl src t (childPath root n) ch h1
      have hs1 := ihch (childPath root n)
        (updTbl t (visitBody excl (childPath root n) ch)) h2
      simp only [noFail, Bool.false_eq_true, if_false, hb, hs1]
      have hs2 := ihrest root
        (updTbl (updTbl t (visitBody excl (childPath root n) ch))
          (visitDesc excl (childPath root n) ch)) h3
      simp only [hs2]
      have e2 : changedOf src (updTbl t (visitBody excl (childPath root n) ch))
            (visitDesc excl (childPath root n) ch)
          = changedOf src t (visitDesc excl (childPath root n) ch) :=
        changedOf_updTbl_disjoint src t _ _ hd2
      have e3 : changedOf src
            (updTbl (updTbl t (visitBody excl (childPath root n) ch))
              (visitDesc excl (childPath root n) ch))
            (visitDesc excl root rest)
          = changedOf src t (visitDesc excl root rest) := by
        rw [← updTbl_append]
        exact changedOf_updTbl_disjoint src t _ _ hd3
      rw [e2, e3, changedOf_append, changedOf_append, updTbl_append, updTbl_append]

theorem scanE_char (excl : List AbsPath) (src : AbsPath) (t : ModTable) (f : FSTree)
    (h : pathsNodup (visitAll excl src f)) :
    scanE excl src noFail t f
      = ⟨updTbl t (visitAll excl src f), changedOf src t (visitAll excl src f), false⟩ := by
  unfold scanE visitAll
  unfold visitAll at h
  show (if is_path_excluded src excl then _ else _) = _
  by_cases hex : is_path_excluded src excl
  · simp only [if_pos hex] at h ⊢
    rfl
  · simp only [if_neg hex] at h ⊢
    obtain ⟨h1, h2, hd⟩ := pathsNodup_append _ _ h
    have hb := bodyLoop_eq excl src t src f h1
    have hw := walkDesc_char excl src f src (updTbl t (visitBody excl src f)) h2
    simp only [hb, hw]
    rw [changedOf_updTbl_disjoint src t _ _ hd, changedOf_append, updTbl_append]

theorem tblGetD_updTbl_mem (vis : List (AbsPath × Option Nat)) :
    ∀ (t : ModTable) (p : AbsPath) (m : Nat),
      pathsNodup vis → (p, some m) ∈ vis →
      tblGetD (updTbl t vis) p 0 = m := by
  induction vis with
  | nil => intro t p m _ hmem; exact absurd hmem (List.not_mem_nil _)
  | cons x rest ih =>
    intro t p m hnd hmem
    obtain ⟨hnotin, hrest⟩ := pathsNodup_cons _ _ hnd
    rcases List.mem_cons.mp hmem with heq | hmem2
    · subst heq
      rw [updTbl_cons_some]
      by_cases hne : m ≠ tblGetD t p 0
      · rw [if_pos hne, tblGetD_updTbl_notin _ _ _ hnotin]
        unfold tblGetD
        rw [tblGet_tblSet_self]
        rfl
      · rw [if_neg hne]
        rw [tblGetD_updTbl_notin _ _ _ hnotin]
        show tblGetD t p 0 = m
        omega
    · obtain ⟨xp, xm⟩ := x
      cases xm with
      | none =>
        rw [updTbl_cons_none]
        exact ih t p m hrest hmem2
      | some m2 =>
        rw [updTbl_cons_some]
        exact ih _ p m hrest hmem2

theorem changedOf_updTbl_self (src : AbsPath) (t : ModTable)
    (vis : List (AbsPath × Option Nat)) (h : pathsNodup vis) :
    changedOf src (updTbl t vis) vis = [] := by
  unfold changedOf
  rw [List.filterMap_eq_nil_iff]
  intro x hx
  obtain ⟨q, mt⟩ := x
  cases mt with
  | none => rfl
  | some m =>
    have hg : tblGetD (updTbl t vis) q 0 = m := tblGetD_updTbl_mem vis t q m h hx
    show (if m ≠ tblGetD (updTbl t vis) q 0
      then some (q, relpathComps q.comps src.comps) else Option.none) = Option.none
    rw [hg]
    simp

/-! ### Claim C2 (corrected): change detection -/

/-- Claim C2, as stated, is false: a visited item (not excluded, existing,
readable modification time) with mtime exactly 0 and no prior recorded value
is NOT emitted as changed, because the lookup `item_mod_times[...].get(path,
0)` conflates "no prior value" with a recorded mtime of 0. -/
theorem c2_counterexample :
    tblGet [] (childPath ⟨[], [pstr "s"]⟩ (pstr "f")) = Option.none ∧
      (childPath ⟨[], [pstr "s"]⟩ (pstr "f"), some 0)
        ∈ visitAll [] ⟨[], [pstr "s"]⟩ (FSTree.fileCons (pstr "f") (some 0) FSTree.nil) ∧
      (scanE [] ⟨[], [pstr "s"]⟩ noFail []
        (FSTree.fileCons (pstr "f") (some 0) FSTree.nil)).changed = [] := by
  decide

/-- Claim C2 as amended: a visited item is emitted as changed exactly when
its readable modification time differs from the table value with absent
entries read as 0 — the scan's changed list is the visit sequence filtered
by `mtime ≠ table.get(path, 0)` — and on the very first poll cycle (empty
table) exactly the visited items whose mtime is nonzero are emitted; an
item with no prior value and mtime exactly 0 is not. -/
theorem c2_changed_characterisation (excl : List AbsPath) (src : AbsPath)
    (f : FSTree) (t : ModTable) (h : pathsNodup (visitAll excl src f)) :
    (scanE excl src noFail t f).changed = changedOf src t (visitAll excl src f) ∧
      (scanE excl src noFail [] f).changed
        = (visitAll excl src f).filterMap (fun x =>
            match x.2 with
            | some m =>
              if m ≠ 0 then some (x.1, relpathComps x.1.comps src.comps)
              else Option.none
            | Option.none => Option.none) := by
  constructor
  · rw [scanE_char excl src t f h]
  · rw [scanE_char excl src [] f h]
    show changedOf src [] (visitAll excl src f) = _
    unfold changedOf
    rfl

/-- Witness for `c2_changed_characterisation` at a concrete two-file tree. -/
theorem c2_changed_characterisation_witness :
    pathsNodup (visitAll [] ⟨[], [pstr "s"]⟩
        (FSTree.fileCons (pstr "a") (some 3)
          (FSTree.fileCons (pstr "z") (some 0) FSTree.nil))) ∧
      ((scanE [] ⟨[], [pstr "s"]⟩ noFail [(childPath ⟨[], [pstr "s"]⟩ (pstr "a"), 3)]
          (FSTree.fileCons (pstr "a") (some 3)
            (FSTree.fileCons (pstr "z") (some 0) FSTree.nil))).changed
        = changedOf ⟨[], [pstr "s"]⟩ [(childPath ⟨[], [pstr "s"]⟩ (pstr "a"), 3)]
            (visitAll [] ⟨[], [pstr "s"]⟩
              (FSTree.fileCons (pstr "a") (some 3)
                (FSTree.fileCons (pstr "z") (some 0) FSTree.nil))) ∧
        (scanE [] ⟨[], [pstr "s"]⟩ noFail []
            (FSTree.fileCons (pstr "a") (some 3)
              (FSTree.fileCons (pstr "z") (some 0) FSTree.nil))).changed
          = (visitAll [] ⟨[], [pstr "s"]⟩
              (FSTree.fileCons (pstr "a") (some 3)
                (FSTree.fileCons (pstr "z") (some 0) FSTree.nil))).filterMap (fun x =>
              match x.2 with
              | some m =>
                if m ≠ 0 then some (x.1, relpathComps x.1.comps (⟨[], [pstr "s"]⟩ : AbsPath).comps)
                else Option.none
              | Option.none => Option.none)) :=
  ⟨by decide,
   c2_changed_characterisation [] ⟨[], [pstr "s"]⟩
     (FSTree.fileCons (pstr "a") (some 3)
       (FSTree.fileCons (pstr "z") (some 0) FSTree.nil))
     [(childPath ⟨[], [pstr "s"]⟩ (pstr "a"), 3)] (by decide)⟩

/-! ### Exclusion subtree invariant (claim C6) -/

theorem isUnder_append_one (q : List PyStr) :
    ∀ (l : List PyStr) (a : PyStr), isUnder q (l ++ [a]) = true →
      isUnder q l = true ∨ q = l ++ [a] := by
  induction q with
  | nil => intro l a _; left; rfl
  | cons b q2 ih =>
    intro l a h
    cases l with
    | nil =>
      right
      simp only [List.nil_append] at h ⊢
      simp only [isUnder, Bool.and_eq_true, decide_eq_true_eq] at h
      cases q2 with
      | nil => rw [h.1]
      | cons c q3 => exact absurd h.2 (by simp [isUnder])
    | cons x l2 =>
      simp only [List.cons_append, isUnder, Bool.and_eq_true, decide_eq_true_eq] at h ⊢
      rcases ih l2 a h.2 with h1 | h1
      · left; exact ⟨h.1, h1⟩
      · right; rw [h.1, h1]

theorem descSelf_childPath_cases (root e : AbsPath) (n : PyStr)
    (h : descSelf (childPath root n) e) : descSelf root e ∨ childPath root n = e := by
  obtain ⟨hd, hu⟩ := h
  rcases isUnder_append_one e.comps root.comps n hu with h1 | h1
  · left; exact ⟨hd, h1⟩
  · right
    obtain ⟨ed, ec⟩ := e
    obtain ⟨rd, rc⟩ := root
    simp_all [childPath]

theorem is_path_excluded_of_mem (e : AbsPath) (excl : List AbsPath) (he : e ∈ excl) :
    is_path_excluded e excl = true := by
  unfold is_path_excluded
  rw [List.any_eq_true]
  exact ⟨e, he, by simp⟩

theorem excluded_of_descSelf_noDD (excl : List AbsPath) (e p : AbsPath) (he : e ∈ excl)
    (hp : descSelf p e) (hno : ∀ c ∈ p.comps, compStartsDD c = false) :
    is_path_excluded p excl = true := by
  obtain ⟨hd, hu⟩ := hp
  by_cases heq : e.comps = p.comps
  · have hpe : p = e := by
      obtain ⟨pd, pc⟩ := p
      obtain ⟨ed, ec⟩ := e
      simp_all
    rw [hpe]
    exact is_path_excluded_of_mem e excl he
  · unfold is_path_excluded
    rw [List.any_eq_true]
    refine ⟨e, he, ?_⟩
    simp only [Bool.or_eq_true]
    right
    rw [if_pos hd, Bool.not_eq_true']
    unfold relpathRaw
    rw [relpathComps_of_under e.comps p.comps hu,
      if_neg (drop_ne_nil_of_under_ne e.comps p.comps hu heq)]
    cases hdp : p.comps.drop e.comps.length with
    | nil => exact absurd hdp (drop_ne_nil_of_under_ne e.comps p.comps hu heq)
    | cons c cs =>
      show compStartsDD c = false
      refine hno c ?_
      have hsplit := eq_append_drop_of_under e.comps p.comps hu
      rw [hdp] at hsplit
      rw [hsplit]
      exact List.mem_append.mpr (Or.inr (List.mem_cons_self c cs))

theorem processItem_pres (excl : List AbsPath) (src root : AbsPath) (e : AbsPath)
    (he : e ∈ excl) (hroot : ¬descSelf root e)
    (acc : ModTable × List Item) (x : PyStr × Option Nat)
    (p : AbsPath) (hp : descSelf p e) :
    tblGet (processItem excl src root acc x).1 p = tblGet acc.1 p ∧
      ∀ rel, (p, rel) ∈ (processItem excl src root acc x).2 → (p, rel) ∈ acc.2 := by
  obtain ⟨n, mt⟩ := x
  by_cases hex : is_path_excluded (childPath root n) excl
  · have hstep : processItem excl src root acc (n, mt) = acc := by
      simp [processItem, hex]
    rw [hstep]
    exact ⟨rfl, fun rel h => h⟩
  · have hndc : ¬descSelf (childPath root n) e := by
      intro hds
      rcases descSelf_childPath_cases root e n hds with h1 | h1
      · exact hroot h1
      · rw [h1] at hex
        exact hex (is_path_excluded_of_mem e excl he)
    have hpne : p ≠ childPath root n := by
      intro hpe
      rw [hpe] at hp
      exact hndc hp
    cases mt with
    | none =>
      have hstep : processItem excl src root acc (n, Option.none) = acc := by
        simp [processItem, hex]
      rw [hstep]
      exact ⟨rfl, fun rel h => h⟩
    | some m =>
      by_cases hne : m ≠ tblGetD acc.1 (childPath root n) 0
      · have hstep : processItem excl src root acc (n, some m)
            = (tblSet acc.1 (childPath root n) m,
               acc.2 ++ [(childPath root n,
                 relpathComps (childPath root n).comps src.comps)]) := by
          simp [processItem, hex, hne]
        rw [hstep]
        refine ⟨tblGet_tblSet_ne acc.1 (childPath root n) p m hpne, ?_⟩
        intro rel hrel
        rcases List.mem_append.mp hrel with h1 | h1
        · exact h1
        · simp only [List.mem_singleton] at h1
          exact absurd (congrArg Prod.fst h1) hpne
      · have hstep : processItem excl src root acc (n, some m) = acc := by
          simp [processItem, hex, hne]
        rw [hstep]
        exact ⟨rfl, fun rel h => h⟩

theorem bodyFold_pres (excl : List AbsPath) (src root : AbsPath) (e : AbsPath)
    (he : e ∈ excl) (hroot : ¬descSelf root e) (p : AbsPath) (hp : descSelf p e) :
    ∀ (names : List (PyStr × Option Nat)) (acc : ModTable × List Item),
      tblGet (names.foldl (processItem excl src root) acc).1 p = tblGet acc.1 p ∧
        ∀ rel, (p, rel) ∈ (names.foldl (processItem excl src root) acc).2 →
          (p, rel) ∈ acc.2 := by
  intro names
  induction names with
  | nil => intro acc; exact ⟨rfl, fun rel h => h⟩
  | cons x rest ih =>
    intro acc
    rw [List.foldl_cons]
    obtain ⟨ht1, hc1⟩ := processItem_pres excl src root e he hroot acc x p hp
    obtain ⟨ht2, hc2⟩ := ih (processItem excl src root acc x)
    exact ⟨ht2.trans ht1, fun rel h => hc1 rel (hc2 rel h)⟩

theorem bodyLoop_pres (excl : List AbsPath) (src root : AbsPath) (e : AbsPath)
    (he : e ∈ excl) (hroot : ¬descSelf root e) (p : AbsPath) (hp : descSelf p e)
    (t : ModTable) (f : FSTree) :
    tblGet (bodyLoop excl src t root f).1 p = tblGet t p ∧
      ∀ rel, (p, rel) ∉ (bodyLoop excl src t root f).2 := by
  obtain ⟨ht, hc⟩ := bodyFold_pres excl src root e he hroot p hp
    (bodyNames excl root f) (t, [])
  exact ⟨ht, fun rel h => absurd (hc rel h) (List.not_mem_nil _)⟩

theorem walkDescE_pres (excl : List AbsPath) (src : AbsPath) (dirFail : AbsPath → Bool)
    (e : AbsPath) (he : e ∈ excl) (p : AbsPath) (hp : descSelf p e) :
    ∀ (f : FSTree) (root : AbsPath) (t : ModTable), ¬descSelf root e →
      tblGet (walkDescE excl src dirFail t root f).table p = tblGet t p ∧
        ∀ rel, (p, rel) ∉ (walkDescE excl src dirFail t root f).changed := by
  intro f
  induction f with
  | nil =>
    intro root t _
    exact ⟨rfl, fun rel h => absurd h (List.not_mem_nil _)⟩
  | fileCons n m rest ih =>
    intro root t hroot
    simp only [walkDescE]
    exact ih root t hroot
  | dirCons n m ch rest ihch ihrest =>
    intro root t hroot
    simp only [walkDescE]
    by_cases hex : is_path_excluded (childPath root n) excl
    · simp only [if_pos hex]
      exact ihrest root t hroot
    · simp only [if_neg hex]
      have hndc : ¬descSelf (childPath root n) e := by
        intro hds
        rcases descSelf_childPath_cases root e n hds with h1 | h1
        · exact hroot h1
        · rw [h1] at hex
          exact hex (is_path_excluded_of_mem e excl he)
      by_cases hdf : dirFail (childPath root n) = true
      · simp only [hdf, if_true]
        exact ⟨trivial, fun rel h => absurd h (List.not_mem_nil _)⟩
      · rw [Bool.not_eq_true] at hdf
        simp only [hdf, Bool.false_eq_true, if_false]
        obtain ⟨hbt, hbc⟩ := bodyLoop_pres excl src (childPath root n) e he hndc p hp t ch
        obtain ⟨h1t, h1c⟩ := ihch (childPath root n)
          (bodyLoop excl src t (childPath root n) ch).1 hndc
        by_cases hr :
            (walkDescE excl src dirFail (bodyLoop excl src t (childPath root n) ch).1
              (childPath root n) ch).raised = true
        · simp only [hr, if_true]
          refine ⟨h1t.trans hbt, ?_⟩
          intro rel hmem
          rcases List.mem_append.mp hmem with h2 | h2
          · exact hbc rel h2
          · exact h1c rel h2
        · rw [Bool.not_eq_true] at hr
          simp only [hr, Bool.false_eq_true, if_false]
          obtain ⟨h2t, h2c⟩ := ihrest root
            (walkDescE excl src dirFail (bodyLoop excl src t (childPath root n) ch).1
              (childPath root n) ch).table hroot
          refine ⟨h2t.trans (h1t.trans hbt), ?_⟩
          intro rel hmem
          rcases List.mem_append.mp hmem with h2 | h2
          · rcases List.mem_append.mp h2 with h3 | h3
            · exact hbc rel h3
            · exact h1c rel h3
          · exact h2c rel h2

/-! ### Claim C6 (corrected): excluded subtrees are never tracked -/

/-- Claim C6, as stated, is false: with `/s` excluded and the source root
`/s/..y` — a genuine descendant of the excluded directory whose relative
first component literally begins with `..` — the root-level exclusion check
fails (see claim C3), so items beneath the excluded directory are
mtime-tracked and emitted as changed. -/
theorem c6_counterexample :
    isUnder (AbsPath.mk [] [pstr "s"]).comps
        (AbsPath.mk [] [pstr "s", pstr "..y", pstr "f"]).comps = true ∧
      (AbsPath.mk [] [pstr "s", pstr "..y", pstr "f"], [pstr "f"])
        ∈ (scanE [AbsPath.mk [] [pstr "s"]] ⟨[], [pstr "s", pstr "..y"]⟩ noFail []
            (FSTree.fileCons (pstr "f") (some 5) FSTree.nil)).changed ∧
      tblGet (scanE [AbsPath.mk [] [pstr "s"]] ⟨[], [pstr "s", pstr "..y"]⟩ noFail []
          (FSTree.fileCons (pstr "f") (some 5) FSTree.nil)).table
        (AbsPath.mk [] [pstr "s", pstr "..y", pstr "f"]) = some 5 := by
  decide

/-- Claim C6 as amended: provided no component of the source root's path
begins with the literal characters `..`, then for every excluded directory
`e`, neither `e` nor any descendant of `e` ever receives a modification-time
table entry or appears in a cycle's changed-item list — regardless of where
the walk fails: an excluded root is not descended into, excluded children
are pruned from the descent list, and every surviving item is re-checked
against the exclusion list before tracking. -/
theorem c6_exclusion_subtree_invariant (excl : List AbsPath)
    (dirFail : AbsPath → Bool) (src : AbsPath) (f : FSTree) (t : ModTable)
    (e : AbsPath) (he : e ∈ excl)
    (hsrc : ∀ c ∈ src.comps, compStartsDD c = false)
    (p : AbsPath) (hp : descSelf p e) :
    tblGet (scanE excl src dirFail t f).table p = tblGet t p ∧
      ∀ rel, (p, rel) ∉ (scanE excl src dirFail t f).changed := by
  unfold scanE
  by_cases hdf : dirFail src = true
  · simp only [hdf, if_true]
    exact ⟨trivial, fun rel h => absurd h (List.not_mem_nil _)⟩
  · rw [Bool.not_eq_true] at hdf
    simp only [hdf, Bool.false_eq_true, if_false]
    by_cases hex : is_path_excluded src excl
    · simp only [if_pos hex]
      exact ⟨trivial, fun rel h => absurd h (List.not_mem_nil _)⟩
    · simp only [if_neg hex]
      have hroot : ¬descSelf src e := by
        intro hds
        exact hex (excluded_of_descSelf_noDD excl e src he hds hsrc)
      obtain ⟨hbt, hbc⟩ := bodyLoop_pres excl src src e he hroot p hp t f
      obtain ⟨hwt, hwc⟩ := walkDescE_pres excl src dirFail e he p hp f src
        (bodyLoop excl src t src f).1 hroot
      refine ⟨hwt.trans hbt, ?_⟩
      intro rel hmem
      rcases List.mem_append.mp hmem with h1 | h1
      · exact hbc rel h1
      · exact hwc rel h1

/-- Witness for `c6_exclusion_subtree_invariant`: excluding `/s/skip` in the
source `/s` keeps every item under `/s/skip` untracked and unreported. -/
theorem c6_exclusion_subtree_invariant_witness :
    (AbsPath.mk [] [pstr "s", pstr "skip"]) ∈ [AbsPath.mk [] [pstr "s", pstr "skip"]] ∧
      (∀ c ∈ (AbsPath.mk [] [pstr "s"]).comps, compStartsDD c = false) ∧
      descSelf ⟨[], [pstr "s", pstr "skip", pstr "g"]⟩ ⟨[], [pstr "s", pstr "skip"]⟩ ∧
      (tblGet (scanE [AbsPath.mk [] [pstr "s", pstr "skip"]] ⟨[], [pstr "s"]⟩ noFail []
            (FSTree.dirCons (pstr "skip") (some 1)
              (FSTree.fileCons (pstr "g") (some 7) FSTree.nil)
              (FSTree.fileCons (pstr "a") (some 3) FSTree.nil))).table
          ⟨[], [pstr "s", pstr "skip", pstr "g"]⟩
        = tblGet [] ⟨[], [pstr "s", pstr "skip", pstr "g"]⟩ ∧
      ∀ rel, (⟨[], [pstr "s", pstr "skip", pstr "g"]⟩, rel)
        ∉ (scanE [AbsPath.mk [] [pstr "s", pstr "skip"]] ⟨[], [pstr "s"]⟩ noFail []
            (FSTree.dirCons (pstr "skip") (some 1)
              (FSTree.fileCons (pstr "g") (some 7) FSTree.nil)
              (FSTree.fileCons (pstr "a") (some 3) FSTree.nil))).changed) :=
  ⟨List.mem_singleton_self _, by decide, by decide,
   c6_exclusion_subtree_invariant [AbsPath.mk [] [pstr "s", pstr "skip"]] noFail
     ⟨[], [pstr "s"]⟩
     (FSTree.dirCons (pstr "skip") (some 1)
       (FSTree.fileCons (pstr "g") (some 7) FSTree.nil)
       (FSTree.fileCons (pstr "a") (some 3) FSTree.nil))
     [] ⟨[], [pstr "s", pstr "skip"]⟩ (List.mem_singleton_self _) (by decide)
     ⟨[], [pstr "s", pstr "skip", pstr "g"]⟩ (by decide)⟩

/-! ### The commit loop and one monitor turn (claims C4, C5, C1) -/

theorem performBackup_fst (copyOk : AbsPath → Bool) :
    ∀ (items : List Item) (acc : Bool),
      (performBackup copyOk items acc).1 = items.map (fun it => (it, copyOk it.1)) := by
  intro items
  induction items with
  | nil => intro acc; rfl
  | cons it rest ih =>
    intro acc
    simp only [performBackup, List.map_cons]
    rw [ih (acc && copyOk it.1)]

theorem performBackup_snd (copyOk : AbsPath → Bool) :
    ∀ (items : List Item) (acc : Bool),
      (performBackup copyOk items acc).2 = (acc && items.all (fun it => copyOk it.1)) := by
  intro items
  induction items with
  | nil => intro acc; simp [performBackup]
  | cons it rest ih =>
    intro acc
    simp only [performBackup, List.all_cons]
    rw [ih (acc && copyOk it.1), Bool.and_assoc]

theorem cycleForPair_table (excl : List AbsPath) (copyOk : AbsPath → Bool)
    (persistOk : Bool) (dirFail : AbsPath → Bool) (src : AbsPath) (f : FSTree)
    (t : ModTable) (cur : PyStr) :
    (cycleForPair excl copyOk persistOk dirFail src f t cur).table
      = (scanE excl src dirFail t f).table := by
  unfold cycleForPair
  by_cases hche : (scanE excl src dirFail t f).changed.isEmpty = true <;>
    simp [hche]

theorem cycleForPair_changed (excl : List AbsPath) (copyOk : AbsPath → Bool)
    (persistOk : Bool) (dirFail : AbsPath → Bool) (src : AbsPath) (f : FSTree)
    (t : ModTable) (cur : PyStr) :
    (cycleForPair excl copyOk persistOk dirFail src f t cur).changed
      = (scanE excl src dirFail t f).changed := by
  unfold cycleForPair
  by_cases hche : (scanE excl src dirFail t f).changed.isEmpty = true <;>
    simp [hche]

theorem cycleForPair_commitRan (excl : List AbsPath) (copyOk : AbsPath → Bool)
    (persistOk : Bool) (dirFail : AbsPath → Bool) (src : AbsPath) (f : FSTree)
    (t : ModTable) (cur : PyStr) :
    (cycleForPair excl copyOk persistOk dirFail src f t cur).commitRan
      = !(scanE excl src dirFail t f).changed.isEmpty := by
  unfold cycleForPair
  by_cases hche : (scanE excl src dirFail t f).changed.isEmpty = true <;>
    simp [hche]

/-! ### Claim C4 (confirmed): every changed item is attempted; success iff
all copies succeed -/

/-- Claim C4: the commit phase attempts a copy for every changed item, each
with its own outcome independent of earlier failures (no short-circuit); the
commit's `backup_success` flag is true exactly when every copy succeeded;
and the version can only be advanced when the flag is true (a failed copy
leaves the version untouched). -/
theorem c4_commit_no_short_circuit (copyOk : AbsPath → Bool) (items : List Item)
    (excl : List AbsPath) (persistOk : Bool) (dirFail : AbsPath → Bool)
    (src : AbsPath) (f : FSTree) (t : ModTable) (cur : PyStr) :
    (performBackup copyOk items true).1 = items.map (fun it => (it, copyOk it.1)) ∧
      (performBackup copyOk items true).2 = items.all (fun it => copyOk it.1) ∧
      ((cycleForPair excl copyOk persistOk dirFail src f t cur).version = cur ∨
        (cycleForPair excl copyOk persistOk dirFail src f t cur).backupSuccess = true) := by
  refine ⟨performBackup_fst copyOk items true, ?_, ?_⟩
  · rw [performBackup_snd copyOk items true, Bool.true_and]
  · unfold cycleForPair
    by_cases hche : (scanE excl src dirFail t f).changed.isEmpty = true
    · simp [hche]
    · simp only [hche, Bool.false_eq_true, if_false]
      by_cases hok :
          (performBackup copyOk (scanE excl src dirFail t f).changed true).2 = true
      · right
        simp [hok]
      · rw [Bool.not_eq_true] at hok
        left
        simp [hok]

/-! ### Claim C5 (corrected): walk failure mid-scan -/

/-- Claim C5, as stated, is false: when the directory walk raises after some
changed items have already been recorded (here the failure occurs while
descending into `/s/d`, after the root's items were processed), the error is
caught but the partial `changed_items` list survives, so a backup commit
STILL runs for that source in that cycle — the source is not treated as
having zero changes. -/
theorem c5_counterexample :
    (cycleForPair [] (fun _ => true) true
        (fun p => p == AbsPath.mk [] [pstr "s", pstr "d"]) ⟨[], [pstr "s"]⟩
        (FSTree.fileCons (pstr "a") (some 3)
          (FSTree.dirCons (pstr "d") (some 1)
            (FSTree.fileCons (pstr "g") (some 7) FSTree.nil) FSTree.nil))
        [] (pstr "1.0.0.0")).raised = true ∧
      (cycleForPair [] (fun _ => true) true
        (fun p => p == AbsPath.mk [] [pstr "s", pstr "d"]) ⟨[], [pstr "s"]⟩
        (FSTree.fileCons (pstr "a") (some 3)
          (FSTree.dirCons (pstr "d") (some 1)
            (FSTree.fileCons (pstr "g") (some 7) FSTree.nil) FSTree.nil))
        [] (pstr "1.0.0.0")).commitRan = true ∧
      (cycleForPair [] (fun _ => true) true
        (fun p => p == AbsPath.mk [] [pstr "s", pstr "d"]) ⟨[], [pstr "s"]⟩
        (FSTree.fileCons (pstr "a") (some 3)
          (FSTree.dirCons (pstr "d") (some 1)
            (FSTree.fileCons (pstr "g") (some 7) FSTree.nil) FSTree.nil))
        [] (pstr "1.0.0.0")).changed.length = 2 := by
  decide

/-- Claim C5 as amended: a walk failure is caught (the cycle always
completes and the loop continues) and stops the scan early, but the items
recorded before the failure keep the cycle's changed list, and a commit runs
exactly when that list is nonempty — whether or not the walk raised; only a
failure at the source root itself (before anything was scanned) guarantees
zero changes and no commit for that cycle. -/
theorem c5_scan_failure_behaviour (excl : List AbsPath) (copyOk : AbsPath → Bool)
    (persistOk : Bool) (dirFail : AbsPath → Bool) (src : AbsPath) (f : FSTree)
    (t : ModTable) (cur : PyStr) :
    ((cycleForPair excl copyOk persistOk dirFail src f t cur).commitRan
        = !(scanE excl src dirFail t f).changed.isEmpty) ∧
      scanE excl src (fun _ => true) t f = ⟨t, [], true⟩ ∧
      (cycleForPair excl copyOk persistOk (fun _ => true) src f t cur).commitRan
        = false := by
  refine ⟨cycleForPair_commitRan excl copyOk persistOk dirFail src f t cur, ?_, ?_⟩
  · rfl
  · rw [cycleForPair_commitRan]
    rfl

/-! ### Claim C1 (corrected): behaviour after a failed commit -/

/-- Claim C1, as stated, is false: with two changed files of which one fails
to copy, the commit fails and the version is indeed not advanced — but on
the next cycle over the unchanged tree NOTHING is detected as changed and no
commit runs at all, because the scan already recorded the new modification
times before the commit; the failed items are not attempted again. -/
theorem c1_counterexample :
    (cycleForPair [] (fun p => !(p == AbsPath.mk [] [pstr "s", pstr "b"])) true noFail
        ⟨[], [pstr "s"]⟩
        (FSTree.fileCons (pstr "a") (some 1)
          (FSTree.fileCons (pstr "b") (some 2) FSTree.nil))
        [] (pstr "1.0.0.0")).commitRan = true ∧
      (cycleForPair [] (fun p => !(p == AbsPath.mk [] [pstr "s", pstr "b"])) true noFail
        ⟨[], [pstr "s"]⟩
        (FSTree.fileCons (pstr "a") (some 1)
          (FSTree.fileCons (pstr "b") (some 2) FSTree.nil))
        [] (pstr "1.0.0.0")).backupSuccess = false ∧
      (cycleForPair [] (fun p => !(p == AbsPath.mk [] [pstr "s", pstr "b"])) true noFail
        ⟨[], [pstr "s"]⟩
        (FSTree.fileCons (pstr "a") (some 1)
          (FSTree.fileCons (pstr "b") (some 2) FSTree.nil))
        [] (pstr "1.0.0.0")).version = pstr "1.0.0.0" ∧
      (cycleForPair [] (fun p => !(p == AbsPath.mk [] [pstr "s", pstr "b"])) true noFail
        ⟨[], [pstr "s"]⟩
        (FSTree.fileCons (pstr "a") (some 1)
          (FSTree.fileCons (pstr "b") (some 2) FSTree.nil))
        [] (pstr "1.0.0.0")).changed.length = 2 ∧
      (cycleForPair [] (fun p => !(p == AbsPath.mk [] [pstr "s", pstr "b"])) true noFail
        ⟨[], [pstr "s"]⟩
        (FSTree.fileCons (pstr "a") (some 1)
          (FSTree.fileCons (pstr "b") (some 2) FSTree.nil))
        (cycleForPair [] (fun p => !(p == AbsPath.mk [] [pstr "s", pstr "b"])) true noFail
          ⟨[], [pstr "s"]⟩
          (FSTree.fileCons (pstr "a") (some 1)
            (FSTree.fileCons (pstr "b") (some 2) FSTree.nil))
          [] (pstr "1.0.0.0")).table
        (cycleForPair [] (fun p => !(p == AbsPath.mk [] [pstr "s", pstr "b"])) true noFail
          ⟨[], [pstr "s"]⟩
          (FSTree.fileCons (pstr "a") (some 1)
            (FSTree.fileCons (pstr "b") (some 2) FSTree.nil))
          [] (pstr "1.0.0.0")).version).changed = [] ∧
      (cycleForPair [] (fun p => !(p == AbsPath.mk [] [pstr "s", pstr "b"])) true noFail
        ⟨[], [pstr "s"]⟩
        (FSTree.fileCons (pstr "a") (some 1)
          (FSTree.fileCons (pstr "b") (some 2) FSTree.nil))
        (cycleForPair [] (fun p => !(p == AbsPath.mk [] [pstr "s", pstr "b"])) true noFail
          ⟨[], [pstr "s"]⟩
          (FSTree.fileCons (pstr "a") (some 1)
            (FSTree.fileCons (pstr "b") (some 2) FSTree.nil))
          [] (pstr "1.0.0.0")).table
        (cycleForPair [] (fun p => !(p == AbsPath.mk [] [pstr "s", pstr "b"])) true noFail
          ⟨[], [pstr "s"]⟩
          (FSTree.fileCons (pstr "a") (some 1)
            (FSTree.fileCons (pstr "b") (some 2) FSTree.nil))
          [] (pstr "1.0.0.0")).version).commitRan = false := by
  decide

/-- Claim C1 as amended: if a backup commit fails for at least one item, the
in-memory current version keeps its prior value (so whenever a later commit
does run, it reuses the same build number); but the same changed items are
NOT attempted again on the next cycle: the scan records the new modification
times before the commit, so a second cycle over the unchanged tree detects
no changes and runs no commit — the failed items are re-detected only if
they are modified again. -/
theorem c1_failed_commit_no_retry (excl : List AbsPath) (copyOk : AbsPath → Bool)
    (persistOk : Bool) (src : AbsPath) (f : FSTree) (t : ModTable) (cur : PyStr)
    (h : pathsNodup (visitAll excl src f)) :
    ((cycleForPair excl copyOk persistOk noFail src f t cur).backupSuccess = false →
      (cycleForPair excl copyOk persistOk noFail src f t cur).version = cur) ∧
      (cycleForPair excl copyOk persistOk noFail src f
          (cycleForPair excl copyOk persistOk noFail src f t cur).table
          (cycleForPair excl copyOk persistOk noFail src f t cur).version).changed = [] ∧
      (cycleForPair excl copyOk persistOk noFail src f
          (cycleForPair excl copyOk persistOk noFail src f t cur).table
          (cycleForPair excl copyOk persistOk noFail src f t cur).version).commitRan
        = false := by
  have htab : (cycleForPair excl copyOk persistOk noFail src f t cur).table
      = updTbl t (visitAll excl src f) := by
    rw [cycleForPair_table, scanE_char excl src t f h]
  have hch2 : (scanE excl src noFail
        (cycleForPair excl copyOk persistOk noFail src f t cur).table f).changed
      = [] := by
    rw [htab, scanE_char excl src (updTbl t (visitAll excl src f)) f h]
    exact changedOf_updTbl_self src t (visitAll excl src f) h
  refine ⟨?_, ?_, ?_⟩
  · intro hb
    unfold cycleForPair at hb ⊢
    by_cases hche : (scanE excl src noFail t f).changed.isEmpty = true
    · simp [hche]
    · simp [hche] at hb ⊢
      simp [hb]
  · rw [cycleForPair_changed]
    exact hch2
  · rw [cycleForPair_commitRan, hch2]
    rfl

/-- Witness for `c1_failed_commit_no_retry` at a concrete two-file tree with
one failing copy. -/
theorem c1_failed_commit_no_retry_witness :
    pathsNodup (visitAll [] ⟨[], [pstr "s"]⟩
        (FSTree.fileCons (pstr "a") (some 1)
          (FSTree.fileCons (pstr "b") (some 2) FSTree.nil))) ∧
      (((cycleForPair [] (fun p => !(p == AbsPath.mk [] [pstr "s", pstr "b"])) true noFail
          ⟨[], [pstr "s"]⟩
          (FSTree.fileCons (pstr "a") (some 1)
            (FSTree.fileCons (pstr "b") (some 2) FSTree.nil))
          [] (pstr "1.0.0.0")).backupSuccess = false →
        (cycleForPair [] (fun p => !(p == AbsPath.mk [] [pstr "s", pstr "b"])) true noFail
          ⟨[], [pstr "s"]⟩
          (FSTree.fileCons (pstr "a") (some 1)
            (FSTree.fileCons (pstr "b") (some 2) FSTree.nil))
          [] (pstr "1.0.0.0")).version = pstr "1.0.0.0") ∧
      (cycleForPair [] (fun p => !(p == AbsPath.mk [] [pstr "s", pstr "b"])) true noFail
          ⟨[], [pstr "s"]⟩
          (FSTree.fileCons (pstr "a") (some 1)
            (FSTree.fileCons (pstr "b") (some 2) FSTree.nil))
          (cycleForPair [] (fun p => !(p == AbsPath.mk [] [pstr "s", pstr "b"])) true noFail
            ⟨[], [pstr "s"]⟩
            (FSTree.fileCons (pstr "a") (some 1)
              (FSTree.fileCons (pstr "b") (some 2) FSTree.nil))
            [] (pstr "1.0.0.0")).table
          (cycleForPair [] (fun p => !(p == AbsPath.mk [] [pstr "s", pstr "b"])) true noFail
            ⟨[], [pstr "s"]⟩
            (FSTree.fileCons (pstr "a") (some 1)
              (FSTree.fileCons (pstr "b") (some 2) FSTree.nil))
            [] (pstr "1.0.0.0")).version).changed = [] ∧
      (cycleForPair [] (fun p => !(p == AbsPath.mk [] [pstr "s", pstr "b"])) true noFail
          ⟨[], [pstr "s"]⟩
          (FSTree.fileCons (pstr "a") (some 1)
            (FSTree.fileCons (pstr "b") (some 2) FSTree.nil))
          (cycleForPair [] (fun p => !(p == AbsPath.mk [] [pstr "s", pstr "b"])) true noFail
            ⟨[], [pstr "s"]⟩
            (FSTree.fileCons (pstr "a") (some 1)
              (FSTree.fileCons (pstr "b") (some 2) FSTree.nil))
            [] (pstr "1.0.0.0")).table
          (cycleForPair [] (fun p => !(p == AbsPath.mk [] [pstr "s", pstr "b"])) true noFail
            ⟨[], [pstr "s"]⟩
            (FSTree.fileCons (pstr "a") (some 1)
              (FSTree.fileCons (pstr "b") (some 2) FSTree.nil))
            [] (pstr "1.0.0.0")).version).commitRan = false) :=
  ⟨by decide,
   c1_failed_commit_no_retry [] (fun p => !(p == AbsPath.mk [] [pstr "s", pstr "b"])) true
     ⟨[], [pstr "s"]⟩
     (FSTree.fileCons (pstr "a") (some 1)
       (FSTree.fileCons (pstr "b") (some 2) FSTree.nil))
     [] (pstr "1.0.0.0") (by decide)⟩
